import Mathlib

/-!
# otelgokit: the go-kit to OpenTelemetry log adapter

A shallow embedding of `log.go`: the dynamically typed values a caller can pass to
`Log`, the `log.Value` / `log.Record` data the adapter builds, and the three functions
`convertLevel`, `convertValue` and `OTelLogger.Log`, with the accessors of `log.Value`
and `value2Result` of the tests, followed by theorems about them.

Run-time panics of the Go code (failed type assertion, index out of range, the
`reflect` panic on a nil pointer) are explicit `Except.error` results.  The only state
the adapter mutates is the logger's `ctx` field; the calls it makes to the downstream
`Emit` are returned as a list.
-/

namespace Otelgokit

/-! ## Data model -/

/-- A `time.Time`: the instant, and the text `fmt` prints for it (the value is a struct
for `reflect`, so `convertValue` renders it). -/
structure Time where
  unixNano : Int
  text : String
  deriving DecidableEq, Repr

/-- The zero value `time.Time{}`, midnight of 1 January of the year 1, which a
`log.Record` holds as long as no timestamp is set. -/
def Time.zero : Time := ⟨-62135596800000000000, "0001-01-01 00:00:00 +0000 UTC"⟩

/-- `t.IsZero()`: the instant is the zero instant. -/
def Time.IsZero (t : Time) : Bool := decide (t.unixNano = Time.zero.unixNano)

/-- A `context.Context` of the standard library (a struct or a non-nil pointer to a
struct), identified by name, with the text `fmt` prints for the struct under `%+v`. -/
structure Context where
  name : String
  text : String
  deriving DecidableEq, Repr

/-- The value of `context.Background()`. -/
def Context.background : Context := ⟨"background", "context.Background"⟩

/-- A key of a Go map as `reflect` hands it to `convertValue`: whether its kind is
`reflect.Struct` (a struct held in an interface-typed key has the kind Interface), its
renderings under `%+v` and `%v`, and whether `val.MapIndex(k)` finds the entry again.  A key that is or holds a NaN float is returned by `MapKeys` but
found by no lookup. -/
structure MapKey where
  isStruct : Bool
  plusV : String
  v : String
  found : Bool
  deriving DecidableEq, Repr

/-- A string used as a map key: `fmt` prints it as itself, and a lookup finds it. -/
def MapKey.ofString (s : String) : MapKey := ⟨false, s, s, true⟩

/-- The float NaN used as a map key: no lookup finds it. -/
def MapKey.nan : MapKey := ⟨false, "NaN", "NaN", false⟩

/-- The dynamic values an `interface{}` argument can hold, by what `convertValue` and
`Log` can observe of them.

* `nil` is the nil interface (no dynamic type);
* `bool`, `bytes` (`[]byte`), `float64` (its IEEE bit pattern), `int`, `int64`,
  `string` are the types of the type switch;
* `time` and `context` are the two types `Log` asserts on;
* `struct` is any other struct, with its `%+v` rendering;
* `slice` is any slice or array other than `[]byte`, with its elements;
* `map` is a map, its entries in the order `MapKeys` returns them;
* `ptr` is a pointer, `none` when nil;
* `other` is a value of any remaining type, with the type's name and its `%+v`
  rendering. -/
inductive GoValue where
  | nil
  | bool (b : Bool)
  | bytes (bs : List UInt8)
  | float64 (bits : Nat)
  | int (n : Int)
  | int64 (n : Int)
  | string (s : String)
  | time (t : Time)
  | context (c : Context)
  | struct (plusV : String)
  | slice (elems : List GoValue)
  | map (entries : List (MapKey × GoValue))
  | ptr (target : Option GoValue)
  | other (typeName : String) (plusV : String)

/-- The closed variant `log.Value`. -/
inductive Value where
  | Empty
  | Bool (b : Bool)
  | Bytes (bs : List UInt8)
  | Float64 (bits : Nat)
  | Int64 (n : Int)
  | String (s : String)
  | Slice (items : List Value)
  | Map (kvs : List (String × Value))

/-- A `log.KeyValue`. -/
structure KeyValue where
  Key : String
  Value : Value

/-- The severities of `log.Severity` that the adapter uses. -/
inductive Severity where
  | Undefined
  | Debug
  | Info
  | Warn
  | Error
  | Fatal1
  | Fatal2
  deriving DecidableEq, Repr

/-- The fields of `log.Record` that `Log` sets.  The timestamp is a plain `time.Time`,
the zero time as long as none is set; a severity that was never set is `Undefined`,
with the empty text. -/
structure Record where
  timestamp : Time
  severity : Severity
  severityText : String
  attributes : List KeyValue

/-- The zero record `log.Record{}`. -/
def Record.empty : Record := ⟨Time.zero, Severity.Undefined, "", []⟩

/-- `r.SetTimestamp(t)`. -/
def Record.SetTimestamp (r : Record) (t : Time) : Record := { r with timestamp := t }

/-- `r.SetSeverity(s)`. -/
def Record.SetSeverity (r : Record) (s : Severity) : Record := { r with severity := s }

/-- `r.SetSeverityText(s)`. -/
def Record.SetSeverityText (r : Record) (s : String) : Record := { r with severityText := s }

/-- `r.AddAttributes(kv)`: the attribute is appended after those already there. -/
def Record.AddAttributes (r : Record) (kv : KeyValue) : Record :=
  { r with attributes := r.attributes ++ [kv] }

/-- The run-time panics the adapter can raise.  `nilDereference` and `unfoundKey` are
both the panic of `reflect.Value.Interface` on the zero Value: the one that `Elem`
returns for a nil pointer, and the one that `MapIndex` returns for a key it does not
find. -/
inductive Panic where
  | indexOutOfRange
  | typeAssertion
  | nilDereference
  | unfoundKey
  deriving DecidableEq, Repr

/-! ## convertLevel -/

/-- `convertLevel`: the type assertion `level.(string)`, `strings.ToLower`, and the
switch.  `strings.ToLower` is library code and is the parameter `toLower`. -/
def convertLevel (toLower : String → String) (level : GoValue) : Except Panic Severity :=
  match level with
  | .string s =>
    let s := toLower s
    if s = "debug" then .ok Severity.Debug
    else if s = "info" then .ok Severity.Info
    else if s = "warn" then .ok Severity.Warn
    else if s = "error" then .ok Severity.Error
    else if s = "panic" then .ok Severity.Fatal1
    else if s = "fatal" then .ok Severity.Fatal2
    else .ok Severity.Undefined
  | _ => .error Panic.typeAssertion

/-! ## convertValue -/

mutual
/-- `convertValue`: the type switch, then the switch on the `reflect` kind. -/
def convertValue : GoValue → Except Panic Value
  | .bool b => .ok (Value.Bool b)
  | .bytes bs => .ok (Value.Bytes bs)
  | .float64 f => .ok (Value.Float64 f)
  | .int n => .ok (Value.Int64 n)
  | .int64 n => .ok (Value.Int64 n)
  | .string s => .ok (Value.String s)
  | .nil => .ok Value.Empty
  | .struct p => .ok (Value.String p)
  | .time t => .ok (Value.String t.text)
  | .context c => .ok (Value.String c.text)
  | .slice elems =>
    match convertItems elems with
    | .ok items => .ok (Value.Slice items)
    | .error e => .error e
  | .map entries =>
    match convertEntries entries with
    | .ok kvs => .ok (Value.Map kvs)
    | .error e => .error e
  | .ptr none => .error Panic.nilDereference
  | .ptr (some v) => convertValue v
  | .other t p => .ok (Value.String ("unhandled attribute type: (" ++ t ++ ") " ++ p))
/-- The loop of the slice case: convert each element, in index order. -/
def convertItems : List GoValue → Except Panic (List Value)
  | [] => .ok []
  | x :: xs =>
    match convertValue x with
    | .error e => .error e
    | .ok y =>
      match convertItems xs with
      | .ok ys => .ok (y :: ys)
      | .error e => .error e
/-- The loop of the map case, over the keys of `MapKeys`: render the key, look the
entry up with `MapIndex` and convert its value.  `Interface` panics on the result of a
lookup that does not find the key. -/
def convertEntries : List (MapKey × GoValue) → Except Panic (List (String × Value))
  | [] => .ok []
  | (k, x) :: rest =>
    if k.found then
      match convertValue x with
      | .error e => .error e
      | .ok y =>
        match convertEntries rest with
        | .ok ys => .ok ((if k.isStruct then k.plusV else k.v, y) :: ys)
        | .error e => .error e
    else .error Panic.unfoundKey
end

/-! ## Log -/

/-- The comparison `k == "ts"` / `k == "level"` of an interface value with a string
constant: true exactly for a value of type `string` with that content. -/
def GoValue.eqString : GoValue → String → Bool
  | .string t, s => decide (t = s)
  | _, _ => false

/-- The receiver of `Log`.  The downstream `logger` field is represented by the name it
was obtained under; the `Emit` calls made on it are part of the outcome of `Log`. -/
structure OTelLogger where
  name : String
  ctx : Context

/-- `NewLogger` (its doc comment and the tests say `NewOTelLogger`): the logger for
`name`, holding the background context. -/
def NewLogger (name : String) : OTelLogger := ⟨name, Context.background⟩

/-- The body of the loop of `Log` for one pair `k, v`, on the logger's context and the
record under construction.  In the attribute case the assertion `k.(string)` is taken
before the call of `convertValue`, as the literal is written. -/
def logPair (toLower : String → String) (ctx : Context) (r : Record) (k v : GoValue) :
    Except Panic (Context × Record) :=
  if k.eqString "ts" then
    match v with
    | .time t => .ok (ctx, r.SetTimestamp t)
    | _ => .error Panic.typeAssertion
  else
    match v with
    | .context c => .ok (c, r)
    | _ =>
      if k.eqString "level" then
        match convertLevel toLower v with
        | .error e => .error e
        | .ok sev =>
          match v with
          | .string s => .ok (ctx, (r.SetSeverity sev).SetSeverityText s)
          | _ => .error Panic.typeAssertion
      else
        match k with
        | .string key =>
          match convertValue v with
          | .error e => .error e
          | .ok val => .ok (ctx, r.AddAttributes ⟨key, val⟩)
        | _ => .error Panic.typeAssertion

/-- The loop `for i := 0; i < len(keyvals); i += 2` of `Log`, on the elements from
index `i` on.  The first component is the logger's context when the loop stops, which
a panic does not roll back. -/
def logLoop (toLower : String → String) :
    Context → Record → List GoValue → Context × Except Panic Record
  | ctx, r, [] => (ctx, .ok r)
  | ctx, _, [_] => (ctx, .error Panic.indexOutOfRange)
  | ctx, r, k :: v :: rest =>
    match logPair toLower ctx r k v with
    | .error e => (ctx, .error e)
    | .ok (ctx', r') => logLoop toLower ctx' r' rest

/-- What a call of `Log` does: it returns an `error` (`none` is nil) or panics, leaves
the logger in some state, and has made some calls `Emit(ctx, record)`. -/
structure Outcome where
  result : Except Panic (Option String)
  logger : OTelLogger
  emitted : List (Context × Record)

/-- `OTelLogger.Log`. -/
def OTelLogger.Log (toLower : String → String) (o : OTelLogger) (keyvals : List GoValue) :
    Outcome :=
  match logLoop toLower o.ctx Record.empty keyvals with
  | (ctx, .error e) => ⟨.error e, { o with ctx := ctx }, []⟩
  | (ctx, .ok r) => ⟨.ok none, { o with ctx := ctx }, [(ctx, r)]⟩

/-! ## Vocabulary of the specification -/

/-- The value is a `time.Time`. -/
def GoValue.isTime : GoValue → Bool
  | .time _ => true
  | _ => false

/-- The value satisfies `context.Context`. -/
def GoValue.isContext : GoValue → Bool
  | .context _ => true
  | _ => false

/-- The value is a `string`. -/
def GoValue.isString : GoValue → Bool
  | .string _ => true
  | _ => false

mutual
/-- No nil pointer occurs in the value, at any depth. -/
def noNilPtr : GoValue → Bool
  | .slice elems => noNilPtrItems elems
  | .map entries => noNilPtrEntries entries
  | .ptr none => false
  | .ptr (some v) => noNilPtr v
  | _ => true
/-- No nil pointer occurs in the elements of a slice. -/
def noNilPtrItems : List GoValue → Bool
  | [] => true
  | x :: xs => noNilPtr x && noNilPtrItems xs
/-- No nil pointer occurs in the entry values of a map. -/
def noNilPtrEntries : List (MapKey × GoValue) → Bool
  | [] => true
  | (_, x) :: rest => noNilPtr x && noNilPtrEntries rest
end

mutual
/-- Every key of every map in the value, at any depth, is found by a lookup. -/
def keysFound : GoValue → Bool
  | .slice elems => keysFoundItems elems
  | .map entries => keysFoundEntries entries
  | .ptr (some v) => keysFound v
  | _ => true
/-- Every map key in the elements of a slice is found by a lookup. -/
def keysFoundItems : List GoValue → Bool
  | [] => true
  | x :: xs => keysFound x && keysFoundItems xs
/-- Every key of a map, and every map key in its entry values, is found by a lookup. -/
def keysFoundEntries : List (MapKey × GoValue) → Bool
  | [] => true
  | (k, x) :: rest => k.found && keysFound x && keysFoundEntries rest
end

/-- The pairs `(keyvals[i], keyvals[i+1])`, `i` even, of a sequence; a last element
without a partner belongs to no pair. -/
def pairs : List GoValue → List (GoValue × GoValue)
  | k :: v :: rest => (k, v) :: pairs rest
  | _ => []

/-- The pair is well formed: a time under `"ts"`; otherwise a context under any key, a
string under `"level"`, or a string key with a value free of nil pointers and of map
keys that no lookup finds. -/
def wellFormedPair (k v : GoValue) : Bool :=
  if k.eqString "ts" then v.isTime
  else if v.isContext then true
  else if k.eqString "level" then v.isString
  else k.isString && noNilPtr v && keysFound v

/-- The pair sequence is well formed: even length, every pair well formed. -/
def wellFormed (keyvals : List GoValue) : Bool :=
  keyvals.length % 2 == 0 && (pairs keyvals).all fun p => wellFormedPair p.1 p.2

/-- The pair is consumed by `Log` as timestamp, context or level. -/
def consumed (p : GoValue × GoValue) : Bool :=
  p.1.eqString "ts" || p.2.isContext || p.1.eqString "level"

/-- The time a value holds, when it is a `time.Time`. -/
def GoValue.time? : GoValue → Option Time
  | .time t => some t
  | _ => none

/-- The context a value holds, when it satisfies `context.Context`. -/
def GoValue.context? : GoValue → Option Context
  | .context c => some c
  | _ => none

/-- The text a value holds, when it is a `string`. -/
def GoValue.string? : GoValue → Option String
  | .string s => some s
  | _ => none

/-- The time values under the key `"ts"`, in input order. -/
def timestamps (keyvals : List GoValue) : List Time :=
  (pairs keyvals).filterMap fun p => if p.1.eqString "ts" then p.2.time? else none

/-- The context values of the pairs, in input order. -/
def contexts (keyvals : List GoValue) : List Context :=
  (pairs keyvals).filterMap fun p => p.2.context?

/-- The strings under the key `"level"`, in input order. -/
def levels (keyvals : List GoValue) : List String :=
  (pairs keyvals).filterMap fun p => if p.1.eqString "level" then p.2.string? else none

/-- The attributes the specification expects: for every pair that is not consumed, in
input order, the key with the conversion of the value. -/
def expectedAttributes (keyvals : List GoValue) : List (GoValue × Except Panic Value) :=
  ((pairs keyvals).filter fun p => !consumed p).map fun p => (p.1, convertValue p.2)

/-- An attribute of a record, seen as a pair of the key value and a conversion result. -/
def attributeView (a : KeyValue) : GoValue × Except Panic Value :=
  (GoValue.string a.Key, Except.ok a.Value)

/-- The pair has the key `"ts"` and a value that is not a `time.Time`. -/
def timestampMismatch (p : GoValue × GoValue) : Bool :=
  p.1.eqString "ts" && !p.2.isTime

/-- The pair has the key `"level"` and a value that is neither a `string` nor a
context. -/
def levelMismatch (p : GoValue × GoValue) : Bool :=
  p.1.eqString "level" && !p.2.isString && !p.2.isContext

/-! ## Sample inputs -/

/-- A time, as `testTime` of the tests. -/
def sampleTime : Time := ⟨1700000000000000000, "2023-11-14 22:13:20 +0000 UTC"⟩

/-- A context carrying a value, as `ctx` of the tests. -/
def sampleContext : Context :=
  ⟨"user", "\x7bContext:context.Background key:user val:true\x7d"⟩

/-- The arguments of the test `Log`, with a timestamp added. -/
def sampleKeyvals : List GoValue :=
  [.string "ctx", .context sampleContext, .string "level", .string "info",
   .string "ts", .time sampleTime, .string "testKey", .string "testValue"]

/-- Arguments without a context value. -/
def sampleKeyvalsNoContext : List GoValue :=
  [.string "level", .string "warn", .string "testKey", .slice [.int 1, .ptr (some (.bool true))]]

/-- Arguments with two context values. -/
def sampleKeyvalsTwoContexts : List GoValue :=
  [.string "first", .context Context.background, .string "testKey", .string "testValue",
   .string "second", .context sampleContext, .string "level", .string "info"]

/-- The entries of `map[float64]int{NaN: 1}`. -/
def sampleNaNEntries : List (MapKey × GoValue) :=
  [(MapKey.nan, .int 1)]

/-- The map `{"a": 1, "b": 2}`, iterated in the order `a`, `b`. -/
def sampleMapEntries : List (MapKey × GoValue) :=
  [(MapKey.ofString "a", .int 1), (MapKey.ofString "b", .int 2)]

/-- A sequence holding a map holding a sequence. -/
def sampleNested : List GoValue :=
  [.map [(MapKey.ofString "k", .slice [.int 1, .int 2])], .string "x"]

/-! ## The accessors of log.Value and the inverse used by the tests -/

/-- The kinds of `log.Kind`. -/
inductive Kind where
  | KindEmpty
  | KindBool
  | KindFloat64
  | KindInt64
  | KindString
  | KindBytes
  | KindSlice
  | KindMap
  deriving DecidableEq, Repr

/-- `v.Kind()`. -/
def kindOf : Value → Kind
  | .Empty => Kind.KindEmpty
  | .Bool _ => Kind.KindBool
  | .Bytes _ => Kind.KindBytes
  | .Float64 _ => Kind.KindFloat64
  | .Int64 _ => Kind.KindInt64
  | .String _ => Kind.KindString
  | .Slice _ => Kind.KindSlice
  | .Map _ => Kind.KindMap

/-- `v.AsBool()`: the boolean of a Bool value, `false` for any other kind. -/
def AsBool : Value → Bool
  | .Bool b => b
  | _ => false

/-- `v.AsFloat64()`: the float (its bit pattern) of a Float64 value, zero otherwise. -/
def AsFloat64 : Value → Nat
  | .Float64 f => f
  | _ => 0

/-- `v.AsInt64()`: the integer of an Int64 value, zero otherwise. -/
def AsInt64 : Value → Int
  | .Int64 n => n
  | _ => 0

/-- `v.AsString()`: the text of a String value, empty otherwise. -/
def AsString : Value → String
  | .String s => s
  | _ => ""

/-- `v.AsBytes()`: the bytes of a Bytes value, none otherwise. -/
def AsBytes : Value → List UInt8
  | .Bytes bs => bs
  | _ => []

/-- The assignment `m[key] = x` on a map given by its entries. -/
def mapAssign (key : String) (x : GoValue) :
    List (MapKey × GoValue) → List (MapKey × GoValue)
  | [] => [(MapKey.ofString key, x)]
  | (k, y) :: rest =>
    if k = MapKey.ofString key then (k, x) :: rest else (k, y) :: mapAssign key x rest

mutual
/-- `value2Result` of the tests: the switch on `v.Kind()`, each case returning what the
accessor of that kind returns; `nil` for a value of no kind. -/
def value2Result : Value → GoValue
  | .Bool b => .bool (AsBool (.Bool b))
  | .Float64 f => .float64 (AsFloat64 (.Float64 f))
  | .Int64 n => .int64 (AsInt64 (.Int64 n))
  | .String s => .string (AsString (.String s))
  | .Bytes bs => .bytes (AsBytes (.Bytes bs))
  | .Slice items => .slice (value2ResultItems items)
  | .Map kvs => .map (value2ResultEntries kvs [])
  | .Empty => .nil
/-- The loop of the slice case of `value2Result`. -/
def value2ResultItems : List Value → List GoValue
  | [] => []
  | x :: xs => value2Result x :: value2ResultItems xs
/-- The loop of the map case of `value2Result`, on the map `m` built so far. -/
def value2ResultEntries : List (String × Value) → List (MapKey × GoValue) →
    List (MapKey × GoValue)
  | [], m => m
  | (k, x) :: rest, m => value2ResultEntries rest (mapAssign k (value2Result x) m)
end

/-! ## More vocabulary of the specification -/

/-- A pointer to `v` through `n` levels: `v`, `&v`, `&&v`, and so on. -/
def pointerTo : Nat → GoValue → GoValue
  | 0, v => v
  | n + 1, v => .ptr (some (pointerTo n v))

/-- The text a map key is rendered to: `%+v` for a struct, `%v` otherwise. -/
def MapKey.render (k : MapKey) : String :=
  if k.isStruct then k.plusV else k.v

/-- The pair has a key that is not a `string` and a value that is not a context. -/
def keyMismatch (p : GoValue × GoValue) : Bool :=
  !p.1.isString && !p.2.isContext

/-! ## Lemmas on convertValue -/

mutual
/-- A value free of nil pointers and of map keys that no lookup finds converts. -/
theorem convertValue_of_noNilPtr :
    ∀ v : GoValue, noNilPtr v = true → keysFound v = true → ∃ y, convertValue v = .ok y
  | .nil, _, _ => by simp [convertValue]
  | .bool _, _, _ => by simp [convertValue]
  | .bytes _, _, _ => by simp [convertValue]
  | .float64 _, _, _ => by simp [convertValue]
  | .int _, _, _ => by simp [convertValue]
  | .int64 _, _, _ => by simp [convertValue]
  | .string _, _, _ => by simp [convertValue]
  | .time _, _, _ => by simp [convertValue]
  | .context _, _, _ => by simp [convertValue]
  | .struct _, _, _ => by simp [convertValue]
  | .other _ _, _, _ => by simp [convertValue]
  | .slice elems, h, hk => by
    obtain ⟨ys, hys⟩ := convertItems_of_noNilPtr elems (by simpa [noNilPtr] using h)
      (by simpa [keysFound] using hk)
    simp [convertValue, hys]
  | .map entries, h, hk => by
    obtain ⟨ys, hys⟩ := convertEntries_of_noNilPtr entries (by simpa [noNilPtr] using h)
      (by simpa [keysFound] using hk)
    simp [convertValue, hys]
  | .ptr none, h, _ => by simp [noNilPtr] at h
  | .ptr (some v), h, hk => by
    obtain ⟨y, hy⟩ := convertValue_of_noNilPtr v (by simpa [noNilPtr] using h)
      (by simpa [keysFound] using hk)
    exact ⟨y, by simp [convertValue, hy]⟩
/-- Elements free of nil pointers and of unfound map keys convert. -/
theorem convertItems_of_noNilPtr :
    ∀ xs : List GoValue, noNilPtrItems xs = true → keysFoundItems xs = true →
      ∃ ys, convertItems xs = .ok ys
  | [], _, _ => ⟨[], by simp [convertItems]⟩
  | x :: xs, h, hk => by
    have h2 : noNilPtr x = true ∧ noNilPtrItems xs = true := by simpa [noNilPtrItems] using h
    have k2 : keysFound x = true ∧ keysFoundItems xs = true := by
      simpa [keysFoundItems] using hk
    obtain ⟨y, hy⟩ := convertValue_of_noNilPtr x h2.1 k2.1
    obtain ⟨ys, hys⟩ := convertItems_of_noNilPtr xs h2.2 k2.2
    exact ⟨y :: ys, by simp [convertItems, hy, hys]⟩
/-- Entries with keys that a lookup finds and values free of nil pointers and of
unfound map keys convert. -/
theorem convertEntries_of_noNilPtr :
    ∀ es : List (MapKey × GoValue), noNilPtrEntries es = true → keysFoundEntries es = true →
      ∃ ys, convertEntries es = .ok ys
  | [], _, _ => ⟨[], by simp [convertEntries]⟩
  | (k, x) :: rest, h, hk => by
    have h2 : noNilPtr x = true ∧ noNilPtrEntries rest = true := by
      simpa [noNilPtrEntries] using h
    have k2 : (k.found = true ∧ keysFound x = true) ∧ keysFoundEntries rest = true := by
      simpa [keysFoundEntries] using hk
    obtain ⟨y, hy⟩ := convertValue_of_noNilPtr x h2.1 k2.1.2
    obtain ⟨ys, hys⟩ := convertEntries_of_noNilPtr rest h2.2 k2.2
    exact ⟨(if k.isStruct then k.plusV else k.v, y) :: ys, by
      simp [convertEntries, k2.1.1, hy, hys]⟩
end

mutual
/-- A value that converts is free of nil pointers and of unfound map keys. -/
theorem noNilPtr_of_convertValue :
    ∀ (v : GoValue) (y : Value), convertValue v = .ok y →
      noNilPtr v = true ∧ keysFound v = true
  | .nil, _, _ => by simp [noNilPtr, keysFound]
  | .bool _, _, _ => by simp [noNilPtr, keysFound]
  | .bytes _, _, _ => by simp [noNilPtr, keysFound]
  | .float64 _, _, _ => by simp [noNilPtr, keysFound]
  | .int _, _, _ => by simp [noNilPtr, keysFound]
  | .int64 _, _, _ => by simp [noNilPtr, keysFound]
  | .string _, _, _ => by simp [noNilPtr, keysFound]
  | .time _, _, _ => by simp [noNilPtr, keysFound]
  | .context _, _, _ => by simp [noNilPtr, keysFound]
  | .struct _, _, _ => by simp [noNilPtr, keysFound]
  | .other _ _, _, _ => by simp [noNilPtr, keysFound]
  | .slice elems, _, h => by
    cases hi : convertItems elems with
    | error e => simp [convertValue, hi] at h
    | ok ys => simpa [noNilPtr, keysFound] using noNilPtrItems_of_convertItems elems ys hi
  | .map entries, _, h => by
    cases hi : convertEntries entries with
    | error e => simp [convertValue, hi] at h
    | ok ys =>
      simpa [noNilPtr, keysFound] using noNilPtrEntries_of_convertEntries entries ys hi
  | .ptr none, _, h => by simp [convertValue] at h
  | .ptr (some v), y, h => by
    simpa [noNilPtr, keysFound] using
      noNilPtr_of_convertValue v y (by simpa [convertValue] using h)
/-- Elements that convert are free of nil pointers and of unfound map keys. -/
theorem noNilPtrItems_of_convertItems :
    ∀ (xs : List GoValue) (ys : List Value), convertItems xs = .ok ys →
      noNilPtrItems xs = true ∧ keysFoundItems xs = true
  | [], _, _ => by simp [noNilPtrItems, keysFoundItems]
  | x :: xs, _, h => by
    cases hx : convertValue x with
    | error e => simp [convertItems, hx] at h
    | ok y =>
      cases hxs : convertItems xs with
      | error e => simp [convertItems, hx, hxs] at h
      | ok ys =>
        have h1 := noNilPtr_of_convertValue x y hx
        have h2 := noNilPtrItems_of_convertItems xs ys hxs
        simp [noNilPtrItems, keysFoundItems, h1.1, h1.2, h2.1, h2.2]
/-- Entries that convert have keys that a lookup finds and values free of nil pointers
and of unfound map keys. -/
theorem noNilPtrEntries_of_convertEntries :
    ∀ (es : List (MapKey × GoValue)) (ys : List (String × Value)),
      convertEntries es = .ok ys → noNilPtrEntries es = true ∧ keysFoundEntries es = true
  | [], _, _ => by simp [noNilPtrEntries, keysFoundEntries]
  | (k, x) :: rest, _, h => by
    cases hf : k.found with
    | false => simp [convertEntries, hf] at h
    | true =>
      cases hx : convertValue x with
      | error e => simp [convertEntries, hf, hx] at h
      | ok y =>
        cases hxs : convertEntries rest with
        | error e => simp [convertEntries, hf, hx, hxs] at h
        | ok ys =>
          have h1 := noNilPtr_of_convertValue x y hx
          have h2 := noNilPtrEntries_of_convertEntries rest ys hxs
          simp [noNilPtrEntries, keysFoundEntries, hf, h1.1, h1.2, h2.1, h2.2]
end

/-- A value on which `convertValue` fails holds a nil pointer or a map key that no
lookup finds. -/
theorem convertValue_error (v : GoValue) (e : Panic) (h : convertValue v = .error e) :
    noNilPtr v = false ∨ keysFound v = false := by
  cases hn : noNilPtr v
  · exact Or.inl rfl
  · cases hk : keysFound v
    · exact Or.inr rfl
    · obtain ⟨y, hy⟩ := convertValue_of_noNilPtr v hn hk
      rw [hy] at h
      cases h

/-! ## Lemmas on the loop of Log -/

theorem wellFormed_cons_cons (k v : GoValue) (rest : List GoValue) :
    wellFormed (k :: v :: rest) = (wellFormedPair k v && wellFormed rest) := by
  simp only [wellFormed, pairs, List.length_cons, List.all_cons]
  rw [Nat.add_assoc, Nat.add_mod_right]
  cases wellFormedPair k v <;> cases (rest.length % 2 == 0) <;> simp

theorem wellFormed_singleton (k : GoValue) : wellFormed [k] = false := by
  simp [wellFormed]

theorem logPair_ts (toLower : String → String) (ctx : Context) (r : Record) (k : GoValue)
    (t : Time) (hk : k.eqString "ts" = true) :
    logPair toLower ctx r k (.time t) = .ok (ctx, r.SetTimestamp t) := by
  simp [logPair, hk]

theorem logPair_context (toLower : String → String) (ctx : Context) (r : Record)
    (k : GoValue) (c : Context) (hk : k.eqString "ts" = false) :
    logPair toLower ctx r k (.context c) = .ok (c, r) := by
  simp [logPair, hk]

theorem convertLevel_string (toLower : String → String) (s : String) :
    ∃ sev, convertLevel toLower (.string s) = .ok sev := by
  simp only [convertLevel]
  split_ifs <;> simp

theorem logPair_level (toLower : String → String) (ctx : Context) (r : Record)
    (k : GoValue) (s : String) (sev : Severity) (hk : k.eqString "ts" = false)
    (hl : k.eqString "level" = true) (hsev : convertLevel toLower (.string s) = .ok sev) :
    logPair toLower ctx r k (.string s) = .ok (ctx, (r.SetSeverity sev).SetSeverityText s) := by
  simp [logPair, hk, hl, hsev]

theorem logPair_attribute (toLower : String → String) (ctx : Context) (r : Record)
    (key : String) (v : GoValue) (val : Value)
    (hk : (GoValue.string key).eqString "ts" = false)
    (hl : (GoValue.string key).eqString "level" = false)
    (hc : v.isContext = false) (hv : convertValue v = .ok val) :
    logPair toLower ctx r (.string key) v = .ok (ctx, r.AddAttributes ⟨key, val⟩) := by
  cases v <;> simp_all [logPair, GoValue.isContext]

theorem timestamps_cons_cons (k v : GoValue) (rest : List GoValue) :
    timestamps (k :: v :: rest) =
      (if k.eqString "ts" then v.time?.toList else []) ++ timestamps rest := by
  simp only [timestamps, pairs, List.filterMap_cons]
  split_ifs with hk
  · cases h : v.time? <;> simp
  · simp

theorem contexts_cons_cons (k v : GoValue) (rest : List GoValue) :
    contexts (k :: v :: rest) = v.context?.toList ++ contexts rest := by
  simp only [contexts, pairs, List.filterMap_cons]
  cases h : v.context? <;> simp

theorem levels_cons_cons (k v : GoValue) (rest : List GoValue) :
    levels (k :: v :: rest) =
      (if k.eqString "level" then v.string?.toList else []) ++ levels rest := by
  simp only [levels, pairs, List.filterMap_cons]
  split_ifs with hk
  · cases h : v.string? <;> simp
  · simp

theorem expectedAttributes_cons_cons (k v : GoValue) (rest : List GoValue) :
    expectedAttributes (k :: v :: rest) =
      (if consumed (k, v) then [] else [(k, convertValue v)]) ++ expectedAttributes rest := by
  simp only [expectedAttributes, pairs, List.filter_cons]
  cases consumed (k, v) <;> simp

theorem eqString_ts_level (k : GoValue) (h : k.eqString "level" = true) :
    k.eqString "ts" = false := by
  cases k <;> simp_all [GoValue.eqString]

/-- The loop on a well-formed sequence: it completes, and its final context and record
are given field by field by the vocabulary of the specification. -/
theorem logLoop_wellFormed (toLower : String → String) :
    ∀ (kvs : List GoValue) (ctx : Context) (r : Record), wellFormed kvs = true →
      ∃ r', logLoop toLower ctx r kvs = ((contexts kvs).getLast?.getD ctx, .ok r') ∧
        r'.timestamp = (timestamps kvs).getLast?.getD r.timestamp ∧
        r'.attributes.map attributeView =
          r.attributes.map attributeView ++ expectedAttributes kvs ∧
        (∀ s, (levels kvs).getLast? = some s →
          r'.severityText = s ∧ convertLevel toLower (.string s) = .ok r'.severity) ∧
        (levels kvs = [] → r'.severityText = r.severityText ∧ r'.severity = r.severity)
  | [], ctx, r, _ =>
    ⟨r, by simp [logLoop, contexts, timestamps, levels, expectedAttributes, pairs]⟩
  | [_], _, _, h => by simp [wellFormed_singleton] at h
  | k :: v :: rest, ctx, r, h => by
    rw [wellFormed_cons_cons, Bool.and_eq_true] at h
    obtain ⟨hp, hrest⟩ := h
    by_cases hts : k.eqString "ts" = true
    · -- the timestamp pair
      have hl : k.eqString "level" = false := by
        cases hl : k.eqString "level"
        · rfl
        · rw [eqString_ts_level k hl] at hts; cases hts
      simp only [wellFormedPair, hts, if_true] at hp
      obtain ⟨t, rfl⟩ : ∃ t, v = .time t := by
        cases v <;> simp_all [GoValue.isTime]
      obtain ⟨r', hloop, htime, hattr, hlev, hnolev⟩ :=
        logLoop_wellFormed toLower rest ctx (r.SetTimestamp t) hrest
      refine ⟨r', ?_, ?_, ?_, ?_, ?_⟩
      · simp [logLoop, logPair_ts toLower ctx r k t hts, hloop, contexts_cons_cons,
          GoValue.context?]
      · rw [htime, timestamps_cons_cons]
        simp only [hts, if_true, GoValue.time?, Option.toList, List.getLast?_append,
          List.getLast?_singleton, Record.SetTimestamp]
        cases (timestamps rest).getLast? <;> simp
      · rw [hattr, expectedAttributes_cons_cons]
        simp [consumed, hts, Record.SetTimestamp]
      · intro s hs
        rw [levels_cons_cons] at hs
        simp only [hl, Bool.false_eq_true, if_false, List.nil_append] at hs
        exact hlev s hs
      · intro hno
        rw [levels_cons_cons] at hno
        simp only [hl, Bool.false_eq_true, if_false, List.nil_append] at hno
        simpa [Record.SetTimestamp] using hnolev hno
    · have hts : k.eqString "ts" = false := by simpa using hts
      simp only [wellFormedPair, hts, Bool.false_eq_true, if_false] at hp
      by_cases hc : v.isContext = true
      · -- the context pair
        obtain ⟨c, rfl⟩ : ∃ c, v = .context c := by
          cases v <;> simp_all [GoValue.isContext]
        obtain ⟨r', hloop, htime, hattr, hlev, hnolev⟩ :=
          logLoop_wellFormed toLower rest c r hrest
        refine ⟨r', ?_, ?_, ?_, ?_, ?_⟩
        · simp only [logLoop, logPair_context toLower ctx r k c hts, hloop,
            contexts_cons_cons, GoValue.context?, Option.toList, List.getLast?_append,
            List.getLast?_singleton]
          cases (contexts rest).getLast? <;> simp
        · rw [htime, timestamps_cons_cons]
          simp [hts]
        · rw [hattr, expectedAttributes_cons_cons]
          simp [consumed, GoValue.isContext]
        · intro s hs
          rw [levels_cons_cons] at hs
          simp only [GoValue.string?, Option.toList, ite_self, List.nil_append] at hs
          exact hlev s hs
        · intro hno
          rw [levels_cons_cons] at hno
          simp only [GoValue.string?, Option.toList, ite_self, List.nil_append] at hno
          exact hnolev hno
      · have hc : v.isContext = false := by simpa using hc
        have hcq : v.context? = none := by
          cases v <;> simp_all [GoValue.isContext, GoValue.context?]
        simp only [hc, Bool.false_eq_true, if_false] at hp
        by_cases hl : k.eqString "level" = true
        · -- the level pair
          simp only [hl, if_true] at hp
          obtain ⟨s0, rfl⟩ : ∃ s0, v = .string s0 := by
            cases v <;> simp_all [GoValue.isString]
          obtain ⟨sev, hsev⟩ := convertLevel_string toLower s0
          have hpair := logPair_level toLower ctx r k s0 sev hts hl hsev
          obtain ⟨r', hloop, htime, hattr, hlev, hnolev⟩ :=
            logLoop_wellFormed toLower rest ctx ((r.SetSeverity sev).SetSeverityText s0) hrest
          refine ⟨r', ?_, ?_, ?_, ?_, ?_⟩
          · simp [logLoop, hpair, hloop, contexts_cons_cons, GoValue.context?]
          · rw [htime, timestamps_cons_cons]
            simp [hts, Record.SetSeverity, Record.SetSeverityText]
          · rw [hattr, expectedAttributes_cons_cons]
            simp [consumed, hl, Record.SetSeverity, Record.SetSeverityText]
          · intro s hs
            rw [levels_cons_cons] at hs
            simp only [hl, if_true, GoValue.string?, Option.toList, List.getLast?_append,
              List.getLast?_singleton] at hs
            cases hlast : (levels rest).getLast? with
            | none =>
              rw [hlast] at hs
              have hs0 : s0 = s := by simpa using hs
              subst hs0
              have hnil : levels rest = [] := List.getLast?_eq_none_iff.mp hlast
              obtain ⟨h1, h2⟩ := hnolev hnil
              simp only [Record.SetSeverity, Record.SetSeverityText] at h1 h2
              exact ⟨h1, by rw [h2]; exact hsev⟩
            | some s1 =>
              rw [hlast] at hs
              have hs1 : s1 = s := by simpa using hs
              subst hs1
              exact hlev s1 hlast
          · intro hno
            rw [levels_cons_cons] at hno
            simp [hl, GoValue.string?] at hno
        · -- the attribute pair
          have hl : k.eqString "level" = false := by simpa using hl
          simp only [hl, Bool.false_eq_true, if_false, Bool.and_eq_true] at hp
          obtain ⟨key, rfl⟩ : ∃ key, k = .string key := by
            cases k <;> simp_all [GoValue.isString]
          obtain ⟨val, hval⟩ := convertValue_of_noNilPtr v hp.1.2 hp.2
          have hpair := logPair_attribute toLower ctx r key v val hts hl hc hval
          obtain ⟨r', hloop, htime, hattr, hlev, hnolev⟩ :=
            logLoop_wellFormed toLower rest ctx (r.AddAttributes ⟨key, val⟩) hrest
          refine ⟨r', ?_, ?_, ?_, ?_, ?_⟩
          · simp [logLoop, hpair, hloop, contexts_cons_cons, hcq]
          · rw [htime, timestamps_cons_cons]
            simp [hts, Record.AddAttributes]
          · rw [hattr, expectedAttributes_cons_cons]
            simp [consumed, hts, hl, hc, Record.AddAttributes, attributeView, hval]
          · intro s hs
            rw [levels_cons_cons] at hs
            simp only [hl, Bool.false_eq_true, if_false, List.nil_append] at hs
            simpa [Record.AddAttributes] using hlev s hs
          · intro hno
            rw [levels_cons_cons] at hno
            simp only [hl, Bool.false_eq_true, if_false, List.nil_append] at hno
            simpa [Record.AddAttributes] using hnolev hno

theorem logPair_ts_mismatch (toLower : String → String) (ctx : Context) (r : Record)
    (k v : GoValue) (hk : k.eqString "ts" = true) (hv : v.isTime = false) :
    logPair toLower ctx r k v = .error Panic.typeAssertion := by
  cases v <;> simp_all [logPair, GoValue.isTime]

theorem logPair_level_mismatch (toLower : String → String) (ctx : Context) (r : Record)
    (k v : GoValue) (hk : k.eqString "ts" = false) (hl : k.eqString "level" = true)
    (hc : v.isContext = false) (hs : v.isString = false) :
    logPair toLower ctx r k v = .error Panic.typeAssertion := by
  cases v <;> simp_all [logPair, GoValue.isContext, GoValue.isString, convertLevel]

theorem logPair_key_mismatch (toLower : String → String) (ctx : Context) (r : Record)
    (k v : GoValue) (hk : k.eqString "ts" = false) (hl : k.eqString "level" = false)
    (hc : v.isContext = false) (hs : k.isString = false) :
    logPair toLower ctx r k v = .error Panic.typeAssertion := by
  cases v <;> cases k <;> simp_all [logPair, GoValue.isContext, GoValue.isString]

theorem logPair_attribute_error (toLower : String → String) (ctx : Context) (r : Record)
    (key : String) (v : GoValue) (e : Panic)
    (hk : (GoValue.string key).eqString "ts" = false)
    (hl : (GoValue.string key).eqString "level" = false)
    (hc : v.isContext = false) (hv : convertValue v = .error e) :
    logPair toLower ctx r (.string key) v = .error e := by
  cases v <;> simp_all [logPair, GoValue.isContext]

/-- The body of the loop, split in what it does to the record (or how it fails), which
does not depend on the logger's context, and what it does to the context. -/
theorem logPair_eq (toLower : String → String) (r : Record) (k v : GoValue) :
    ∃ res : Except Panic Record, ∀ ctx : Context,
      logPair toLower ctx r k v = res.map fun r' => (v.context?.getD ctx, r') := by
  by_cases hts : k.eqString "ts" = true
  · cases hv : v.isTime
    · exact ⟨.error Panic.typeAssertion, fun ctx => by
        rw [logPair_ts_mismatch toLower ctx r k v hts hv]; rfl⟩
    · obtain ⟨t, rfl⟩ : ∃ t, v = .time t := by
        cases v <;> simp_all [GoValue.isTime]
      exact ⟨.ok (r.SetTimestamp t), fun ctx => by
        rw [logPair_ts toLower ctx r k t hts]; rfl⟩
  · have hts : k.eqString "ts" = false := by simpa using hts
    cases hc : v.isContext
    · have hcq : v.context? = none := by
        cases v <;> simp_all [GoValue.isContext, GoValue.context?]
      cases hl : k.eqString "level"
      · cases hs : k.isString
        · exact ⟨.error Panic.typeAssertion, fun ctx => by
            rw [logPair_key_mismatch toLower ctx r k v hts hl hc hs]; rfl⟩
        · obtain ⟨key, rfl⟩ : ∃ key, k = .string key := by
            cases k <;> simp_all [GoValue.isString]
          cases hv : convertValue v with
          | error e =>
            exact ⟨.error e, fun ctx => by
              rw [logPair_attribute_error toLower ctx r key v e hts hl hc hv]; rfl⟩
          | ok val =>
            exact ⟨.ok (r.AddAttributes ⟨key, val⟩), fun ctx => by
              rw [logPair_attribute toLower ctx r key v val hts hl hc hv, hcq]; rfl⟩
      · cases hs : v.isString
        · exact ⟨.error Panic.typeAssertion, fun ctx => by
            rw [logPair_level_mismatch toLower ctx r k v hts hl hc hs]; rfl⟩
        · obtain ⟨s0, rfl⟩ : ∃ s0, v = .string s0 := by
            cases v <;> simp_all [GoValue.isString]
          obtain ⟨sev, hsev⟩ := convertLevel_string toLower s0
          exact ⟨.ok ((r.SetSeverity sev).SetSeverityText s0), fun ctx => by
            rw [logPair_level toLower ctx r k s0 sev hts hl hsev]; rfl⟩
    · obtain ⟨c, rfl⟩ : ∃ c, v = .context c := by
        cases v <;> simp_all [GoValue.isContext]
      exact ⟨.ok r, fun ctx => by rw [logPair_context toLower ctx r k c hts]; rfl⟩

/-- The context a pair leaves in the logger, when the body of the loop completes. -/
theorem logPair_fst (toLower : String → String) (ctx c1 : Context) (r r1 : Record)
    (k v : GoValue) (h : logPair toLower ctx r k v = .ok (c1, r1)) :
    c1 = v.context?.getD ctx := by
  obtain ⟨res, hres⟩ := logPair_eq toLower r k v
  rw [hres ctx] at h
  cases res with
  | error e => simp [Except.map] at h
  | ok r' =>
    simp only [Except.map, Except.ok.injEq, Prod.mk.injEq] at h
    exact h.1.symm

/-- The record and the failure of a pair do not depend on the logger's context. -/
theorem logPair_snd (toLower : String → String) (ctx ctx' : Context) (r : Record)
    (k v : GoValue) :
    (logPair toLower ctx r k v).map Prod.snd = (logPair toLower ctx' r k v).map Prod.snd := by
  obtain ⟨res, hres⟩ := logPair_eq toLower r k v
  rw [hres ctx, hres ctx']
  cases res <;> rfl

/-- The record and the failure of the loop do not depend on the logger's context. -/
theorem logLoop_snd (toLower : String → String) :
    ∀ (kvs : List GoValue) (ctx ctx' : Context) (r : Record),
      (logLoop toLower ctx r kvs).2 = (logLoop toLower ctx' r kvs).2
  | [], _, _, _ => by simp [logLoop]
  | [_], _, _, _ => by simp [logLoop]
  | k :: v :: rest, ctx, ctx', r => by
    have h := logPair_snd toLower ctx ctx' r k v
    cases h1 : logPair toLower ctx r k v with
    | error e =>
      cases h2 : logPair toLower ctx' r k v with
      | error e' =>
        rw [h1, h2] at h
        simp only [Except.map, Except.error.injEq] at h
        simp [logLoop, h1, h2, h]
      | ok p' => rw [h1, h2] at h; simp [Except.map] at h
    | ok p =>
      cases h2 : logPair toLower ctx' r k v with
      | error e' => rw [h1, h2] at h; simp [Except.map] at h
      | ok p' =>
        rw [h1, h2] at h
        simp only [Except.map, Except.ok.injEq] at h
        obtain ⟨c1, r1⟩ := p
        obtain ⟨c2, r2⟩ := p'
        simp only at h
        subst h
        simp only [logLoop, h1, h2]
        exact logLoop_snd toLower rest c1 c2 r1

/-- The loop on a concatenation whose first part has even length. -/
theorem logLoop_append (toLower : String → String) (rest : List GoValue) :
    ∀ (pre : List GoValue) (ctx : Context) (r : Record), pre.length % 2 = 0 →
      logLoop toLower ctx r (pre ++ rest) =
        match logLoop toLower ctx r pre with
        | (c, .ok r1) => logLoop toLower c r1 rest
        | (c, .error e) => (c, .error e)
  | [], _, _, _ => by simp [logLoop]
  | [_], _, _, h => by simp at h
  | k :: v :: pre, ctx, r, h => by
    have hpre : pre.length % 2 = 0 := by
      simp only [List.length_cons] at h
      omega
    simp only [List.cons_append, logLoop]
    cases h1 : logPair toLower ctx r k v with
    | error e => simp
    | ok p =>
      obtain ⟨c1, r1⟩ := p
      simp only
      exact logLoop_append toLower rest pre c1 r1 hpre

/-- The context the loop leaves in the logger is the one it started with or the value
of one of the pairs. -/
theorem logLoop_fst_mem (toLower : String → String) :
    ∀ (kvs : List GoValue) (ctx : Context) (r : Record),
      (logLoop toLower ctx r kvs).1 = ctx ∨ (logLoop toLower ctx r kvs).1 ∈ contexts kvs
  | [], _, _ => by simp [logLoop]
  | [_], _, _ => by simp [logLoop]
  | k :: v :: rest, ctx, r => by
    simp only [logLoop]
    cases h1 : logPair toLower ctx r k v with
    | error e => simp
    | ok p =>
      obtain ⟨c1, r1⟩ := p
      simp only
      have hc := logPair_fst toLower ctx c1 r r1 k v h1
      rw [contexts_cons_cons]
      rcases logLoop_fst_mem toLower rest c1 r1 with h | h
      · rw [h, hc]
        cases hv : v.context? <;> simp
      · exact Or.inr (List.mem_append_right _ h)

/-- When the loop completes, the context it leaves is the last context value of the
pairs, or the one it started with when there is none. -/
theorem logLoop_fst_of_ok (toLower : String → String) :
    ∀ (kvs : List GoValue) (ctx c' : Context) (r r' : Record),
      logLoop toLower ctx r kvs = (c', .ok r') → c' = (contexts kvs).getLast?.getD ctx
  | [], _, _, _, _, h => by
    simp only [logLoop, Prod.mk.injEq] at h
    simp [contexts, pairs, h.1]
  | [_], _, _, _, _, h => by simp [logLoop] at h
  | k :: v :: rest, ctx, c', r, r', h => by
    simp only [logLoop] at h
    cases h1 : logPair toLower ctx r k v with
    | error e => rw [h1] at h; simp at h
    | ok p =>
      obtain ⟨c1, r1⟩ := p
      rw [h1] at h
      simp only at h
      have hc := logPair_fst toLower ctx c1 r r1 k v h1
      have ih := logLoop_fst_of_ok toLower rest c1 c' r1 r' h
      rw [ih, hc, contexts_cons_cons, List.getLast?_append]
      cases (contexts rest).getLast? <;> cases v.context? <;> simp

/-- A sequence of odd length makes the loop fail. -/
theorem logLoop_odd (toLower : String → String) :
    ∀ (kvs : List GoValue) (ctx : Context) (r : Record), kvs.length % 2 = 1 →
      ∃ e, (logLoop toLower ctx r kvs).2 = .error e
  | [], _, _, h => by simp at h
  | [_], _, _, _ => by simp [logLoop]
  | k :: v :: rest, ctx, r, h => by
    have hrest : rest.length % 2 = 1 := by
      simp only [List.length_cons] at h
      omega
    simp only [logLoop]
    cases h1 : logPair toLower ctx r k v with
    | error e => simp
    | ok p =>
      obtain ⟨c1, r1⟩ := p
      simp only
      exact logLoop_odd toLower rest c1 r1 hrest

/-- A pair on which the body of the loop fails whatever the state makes the loop fail. -/
theorem logLoop_fails_of_pair (toLower : String → String) (bad : GoValue × GoValue → Bool)
    (hbad : ∀ ctx r k v, bad (k, v) = true → ∃ e, logPair toLower ctx r k v = .error e) :
    ∀ (kvs : List GoValue) (ctx : Context) (r : Record), (pairs kvs).any bad = true →
      ∃ e, (logLoop toLower ctx r kvs).2 = .error e
  | [], _, _, h => by simp [pairs] at h
  | [_], _, _, h => by simp [pairs] at h
  | k :: v :: rest, ctx, r, h => by
    simp only [logLoop]
    cases h1 : logPair toLower ctx r k v with
    | error e => simp
    | ok p =>
      obtain ⟨c1, r1⟩ := p
      simp only
      simp only [pairs, List.any_cons, Bool.or_eq_true] at h
      rcases h with h | h
      · obtain ⟨e, he⟩ := hbad ctx r k v h
        rw [he] at h1
        cases h1
      · exact logLoop_fails_of_pair toLower bad hbad rest c1 r1 h

/-- The outcome of `Log` when the loop fails. -/
theorem Log_of_error (toLower : String → String) (o : OTelLogger) (kvs : List GoValue)
    (e : Panic) (h : (logLoop toLower o.ctx Record.empty kvs).2 = .error e) :
    o.Log toLower kvs =
      ⟨.error e, { o with ctx := (logLoop toLower o.ctx Record.empty kvs).1 }, []⟩ := by
  unfold OTelLogger.Log
  cases hl : logLoop toLower o.ctx Record.empty kvs with
  | mk c res =>
    rw [hl] at h
    simp only at h
    subst h
    rfl

/-- The outcome of `Log` when the loop completes. -/
theorem Log_of_ok (toLower : String → String) (o : OTelLogger) (kvs : List GoValue)
    (c : Context) (r : Record) (h : logLoop toLower o.ctx Record.empty kvs = (c, .ok r)) :
    o.Log toLower kvs = ⟨.ok none, { o with ctx := c }, [(c, r)]⟩ := by
  unfold OTelLogger.Log
  rw [h]

/-- A pair on which the body of the loop completes is well formed. -/
theorem wellFormedPair_of_logPair (toLower : String → String) (ctx : Context) (r : Record)
    (k v : GoValue) (p : Context × Record) (h : logPair toLower ctx r k v = .ok p) :
    wellFormedPair k v = true := by
  cases hts : k.eqString "ts"
  · cases hc : v.isContext
    · cases hl : k.eqString "level"
      · cases hs : k.isString
        · rw [logPair_key_mismatch toLower ctx r k v hts hl hc hs] at h
          cases h
        · obtain ⟨key, rfl⟩ : ∃ key, k = .string key := by
            cases k <;> simp_all [GoValue.isString]
          cases hv : convertValue v with
          | error e =>
            rw [logPair_attribute_error toLower ctx r key v e hts hl hc hv] at h
            cases h
          | ok val =>
            simp [wellFormedPair, hts, hc, hl, hs, (noNilPtr_of_convertValue v val hv).1,
              (noNilPtr_of_convertValue v val hv).2]
      · cases hs : v.isString
        · rw [logPair_level_mismatch toLower ctx r k v hts hl hc hs] at h
          cases h
        · simp [wellFormedPair, hts, hc, hl, hs]
    · simp [wellFormedPair, hts, hc]
  · cases hv : v.isTime
    · rw [logPair_ts_mismatch toLower ctx r k v hts hv] at h
      cases h
    · simp [wellFormedPair, hts, hv]

/-- A sequence on which the loop completes is well formed. -/
theorem wellFormed_of_logLoop (toLower : String → String) :
    ∀ (kvs : List GoValue) (ctx c' : Context) (r r' : Record),
      logLoop toLower ctx r kvs = (c', .ok r') → wellFormed kvs = true
  | [], _, _, _, _, _ => by decide
  | [_], _, _, _, _, h => by simp [logLoop] at h
  | k :: v :: rest, ctx, c', r, r', h => by
    simp only [logLoop] at h
    cases h1 : logPair toLower ctx r k v with
    | error e => rw [h1] at h; simp at h
    | ok p =>
      obtain ⟨c1, r1⟩ := p
      rw [h1] at h
      simp only at h
      rw [wellFormed_cons_cons, wellFormedPair_of_logPair toLower ctx r k v _ h1,
        wellFormed_of_logLoop toLower rest c1 c' r1 r' h]
      rfl

/-! ## The record that Log emits -/

/-- C1: for every well-formed pair sequence (even length, a time under every `"ts"`, a
string under every `"level"` whose value is not a context, a string key on every other
pair whose value is not a context, attribute values free of nil pointers and of map
keys that no lookup finds), `Log` emits one record whose attributes are exactly, in input order and without merging duplicates, the pairs
`(k, convertValue v)` of the pairs `(k, v)` where `k` is not `"ts"`, `v` is not a
context and `k` is not `"level"`; the attribute count is the number of pairs minus the
number of pairs consumed as timestamp, context or level. -/
theorem log_attributes_exact (toLower : String → String) (o : OTelLogger)
    (keyvals : List GoValue) (h : wellFormed keyvals = true) :
    ∃ ctx r, (o.Log toLower keyvals).emitted = [(ctx, r)] ∧
      r.attributes.map attributeView = expectedAttributes keyvals ∧
      r.attributes.length = (pairs keyvals).length - (pairs keyvals).countP consumed := by
  obtain ⟨r, hloop, -, hattr, -, -⟩ := logLoop_wellFormed toLower keyvals o.ctx Record.empty h
  have hattr' : r.attributes.map attributeView = expectedAttributes keyvals := by
    simpa [Record.empty] using hattr
  refine ⟨_, r, by rw [Log_of_ok toLower o keyvals _ r hloop], hattr', ?_⟩
  have hlen := congrArg List.length hattr'
  rw [List.length_map] at hlen
  rw [hlen, expectedAttributes, List.length_map, ← List.countP_eq_length_filter]
  have hsum := List.length_eq_countP_add_countP (p := consumed) (pairs keyvals)
  have hcongr : List.countP (fun p => !consumed p) (pairs keyvals) =
      List.countP (fun a => decide ¬consumed a = true) (pairs keyvals) := by
    congr 1
    funext a
    cases consumed a <;> simp
  omega

/-- C1, on the sample arguments. -/
theorem log_attributes_exact_witness :
    wellFormed sampleKeyvals = true ∧
    ∃ ctx r, ((NewLogger "name").Log String.toLower sampleKeyvals).emitted = [(ctx, r)] ∧
      r.attributes.map attributeView = expectedAttributes sampleKeyvals ∧
      r.attributes.length =
        (pairs sampleKeyvals).length - (pairs sampleKeyvals).countP consumed :=
  ⟨by decide, log_attributes_exact String.toLower (NewLogger "name") sampleKeyvals (by decide)⟩

/-- C2: `convertLevel` is total on strings and decides on the lower-cased string alone:
it returns Debug, Info, Warn, Error, Fatal1 or Fatal2 exactly when the lower-cased
string is `"debug"`, `"info"`, `"warn"`, `"error"`, `"panic"` or `"fatal"`, Undefined
for every other string, and strings that are equal after lower-casing get the same
severity. -/
theorem convertLevel_total_case_insensitive (toLower : String → String) (s : String) :
    ∃ sev, convertLevel toLower (.string s) = .ok sev ∧
      (sev = Severity.Debug ↔ toLower s = "debug") ∧
      (sev = Severity.Info ↔ toLower s = "info") ∧
      (sev = Severity.Warn ↔ toLower s = "warn") ∧
      (sev = Severity.Error ↔ toLower s = "error") ∧
      (sev = Severity.Fatal1 ↔ toLower s = "panic") ∧
      (sev = Severity.Fatal2 ↔ toLower s = "fatal") ∧
      (sev = Severity.Undefined ↔
        toLower s ∉ ["debug", "info", "warn", "error", "panic", "fatal"]) ∧
      ∀ t, toLower t = toLower s → convertLevel toLower (.string t) = .ok sev := by
  have hcongr : ∀ t, toLower t = toLower s →
      convertLevel toLower (.string t) = convertLevel toLower (.string s) := by
    intro t ht
    simp only [convertLevel, ht]
  have key : ∃ sev, convertLevel toLower (.string s) = .ok sev ∧
      (sev = Severity.Debug ↔ toLower s = "debug") ∧
      (sev = Severity.Info ↔ toLower s = "info") ∧
      (sev = Severity.Warn ↔ toLower s = "warn") ∧
      (sev = Severity.Error ↔ toLower s = "error") ∧
      (sev = Severity.Fatal1 ↔ toLower s = "panic") ∧
      (sev = Severity.Fatal2 ↔ toLower s = "fatal") ∧
      (sev = Severity.Undefined ↔
        toLower s ∉ ["debug", "info", "warn", "error", "panic", "fatal"]) := by
    simp only [convertLevel]
    split_ifs with h1 h2 h3 h4 h5 h6
    · exact ⟨_, rfl, by simp [h1]⟩
    · exact ⟨_, rfl, by simp [h2]⟩
    · exact ⟨_, rfl, by simp [h3]⟩
    · exact ⟨_, rfl, by simp [h4]⟩
    · exact ⟨_, rfl, by simp [h5]⟩
    · exact ⟨_, rfl, by simp [h6]⟩
    · exact ⟨_, rfl, by simp [h1, h2, h3, h4, h5, h6]⟩
  obtain ⟨sev, hs, a1, a2, a3, a4, a5, a6, a7⟩ := key
  exact ⟨sev, hs, a1, a2, a3, a4, a5, a6, a7, fun t ht => by rw [hcongr t ht, hs]⟩

/-- C3: for every well-formed pair sequence, the record `Log` emits has as severity
text the string supplied under the last `"level"` key, verbatim, and as severity
`convertLevel` of that string; without a `"level"` string the severity is Undefined and
the severity text is empty. -/
theorem log_severity (toLower : String → String) (o : OTelLogger)
    (keyvals : List GoValue) (h : wellFormed keyvals = true) :
    ∃ ctx r, (o.Log toLower keyvals).emitted = [(ctx, r)] ∧
      (∀ s, (levels keyvals).getLast? = some s →
        r.severityText = s ∧ convertLevel toLower (.string s) = .ok r.severity) ∧
      (levels keyvals = [] → r.severity = Severity.Undefined ∧ r.severityText = "") := by
  obtain ⟨r, hloop, -, -, hlev, hnolev⟩ :=
    logLoop_wellFormed toLower keyvals o.ctx Record.empty h
  refine ⟨_, r, by rw [Log_of_ok toLower o keyvals _ r hloop], hlev, fun hno => ?_⟩
  obtain ⟨h1, h2⟩ := hnolev hno
  exact ⟨by rw [h2]; rfl, by rw [h1]; rfl⟩

/-- C3, on the sample arguments. -/
theorem log_severity_witness :
    wellFormed sampleKeyvals = true ∧
    ∃ ctx r, ((NewLogger "name").Log String.toLower sampleKeyvals).emitted = [(ctx, r)] ∧
      (∀ s, (levels sampleKeyvals).getLast? = some s →
        r.severityText = s ∧ convertLevel String.toLower (.string s) = .ok r.severity) ∧
      (levels sampleKeyvals = [] → r.severity = Severity.Undefined ∧ r.severityText = "") :=
  ⟨by decide, log_severity String.toLower (NewLogger "name") sampleKeyvals (by decide)⟩

/-! ## The context -/

/-- C4, as stated, fails under the key `"ts"`: on the two arguments `"ts", ctx` the
call panics on the type assertion of that pair, emits nothing, and the logger keeps the
background context. -/
theorem log_context_under_ts_panics :
    ((NewLogger "name").Log String.toLower [.string "ts", .context sampleContext]).result
        = .error Panic.typeAssertion ∧
      ((NewLogger "name").Log String.toLower [.string "ts", .context sampleContext]).emitted
        = [] ∧
      ((NewLogger "name").Log String.toLower
        [.string "ts", .context sampleContext]).logger.ctx = Context.background ∧
      Context.background ≠ sampleContext :=
  ⟨rfl, rfl, rfl, by decide⟩

/-- C4, amended: a pair whose value is a context, under any key other than `"ts"` and
after any even number of elements: the body of the loop does not fail on it, stores the
value as the logger's context and leaves the record as it is; the call has the result
and emits the record of the call without that pair; and a record that is emitted goes
out with the last context value from that pair on. -/
theorem log_context_pair (toLower : String → String) (o : OTelLogger)
    (pre post : List GoValue) (k : GoValue) (c : Context)
    (hpre : pre.length % 2 = 0) (hk : k.eqString "ts" = false) :
    (∀ ctx r, logPair toLower ctx r k (.context c) = .ok (c, r)) ∧
      (o.Log toLower (pre ++ k :: .context c :: post)).result =
        (o.Log toLower (pre ++ post)).result ∧
      (o.Log toLower (pre ++ k :: .context c :: post)).emitted.map Prod.snd =
        (o.Log toLower (pre ++ post)).emitted.map Prod.snd ∧
      ∀ e ∈ (o.Log toLower (pre ++ k :: .context c :: post)).emitted,
        e.1 = (contexts post).getLast?.getD c ∧
          (o.Log toLower (pre ++ k :: .context c :: post)).logger.ctx = e.1 := by
  refine ⟨fun ctx r => logPair_context toLower ctx r k c hk, ?_⟩
  have h1 := logLoop_append toLower (k :: .context c :: post) pre o.ctx Record.empty hpre
  have h2 := logLoop_append toLower post pre o.ctx Record.empty hpre
  cases hp : logLoop toLower o.ctx Record.empty pre with
  | mk c1 res =>
    cases res with
    | error e =>
      rw [hp] at h1 h2
      simp only at h1 h2
      have e1 := Log_of_error toLower o (pre ++ k :: .context c :: post) e (by rw [h1])
      have e2 := Log_of_error toLower o (pre ++ post) e (by rw [h2])
      rw [e1, e2]
      simp
    | ok r1 =>
      rw [hp] at h1 h2
      simp only [logLoop, logPair_context toLower c1 r1 k c hk] at h1 h2
      have hs := logLoop_snd toLower post c c1 r1
      cases hq : logLoop toLower c r1 post with
      | mk c2 res2 =>
        cases hq' : logLoop toLower c1 r1 post with
        | mk c3 res3 =>
          rw [hq, hq'] at hs
          simp only at hs
          subst hs
          rw [hq] at h1
          rw [hq'] at h2
          cases res2 with
          | error e =>
            have e1 := Log_of_error toLower o (pre ++ k :: .context c :: post) e (by rw [h1])
            have e2 := Log_of_error toLower o (pre ++ post) e (by rw [h2])
            rw [e1, e2]
            simp
          | ok r2 =>
            have e1 := Log_of_ok toLower o (pre ++ k :: .context c :: post) c2 r2 h1
            have e2 := Log_of_ok toLower o (pre ++ post) c3 r2 h2
            rw [e1, e2]
            have hc2 := logLoop_fst_of_ok toLower post c c2 r1 r2 hq
            simp [hc2]

/-- C4 amended, on the arguments of the test `Log With`. -/
theorem log_context_pair_witness :
    [GoValue.string "testKey", GoValue.string "testValue"].length % 2 = 0 ∧
    (GoValue.string "ctx").eqString "ts" = false ∧
    ((∀ ctx r, logPair String.toLower ctx r (.string "ctx") (.context sampleContext)
        = .ok (sampleContext, r)) ∧
      ((NewLogger "name").Log String.toLower
        ([.string "testKey", .string "testValue"] ++
          .string "ctx" :: .context sampleContext :: [.string "level", .string "info"])).result =
        ((NewLogger "name").Log String.toLower
          ([.string "testKey", .string "testValue"] ++
            [.string "level", .string "info"])).result ∧
      ((NewLogger "name").Log String.toLower
        ([.string "testKey", .string "testValue"] ++
          .string "ctx" :: .context sampleContext ::
            [.string "level", .string "info"])).emitted.map Prod.snd =
        ((NewLogger "name").Log String.toLower
          ([.string "testKey", .string "testValue"] ++
            [.string "level", .string "info"])).emitted.map Prod.snd ∧
      ∀ e ∈ ((NewLogger "name").Log String.toLower
          ([.string "testKey", .string "testValue"] ++
            .string "ctx" :: .context sampleContext ::
              [.string "level", .string "info"])).emitted,
        e.1 = (contexts [.string "level", .string "info"]).getLast?.getD sampleContext ∧
          ((NewLogger "name").Log String.toLower
            ([.string "testKey", .string "testValue"] ++
              .string "ctx" :: .context sampleContext ::
                [.string "level", .string "info"])).logger.ctx = e.1) :=
  ⟨by decide, by decide,
    log_context_pair String.toLower (NewLogger "name")
      [.string "testKey", .string "testValue"] [.string "level", .string "info"]
      (.string "ctx") sampleContext (by decide) (by decide)⟩

/-- C5: a `Log` call on a well-formed pair sequence without a context value leaves the
logger's context as it was and emits with that context: the background context on a
new logger, the context captured by an earlier `Log` call after such a call. -/
theorem log_without_context_keeps_context (toLower : String → String) (o : OTelLogger)
    (keyvals : List GoValue) (h : wellFormed keyvals = true) (hno : contexts keyvals = []) :
    (o.Log toLower keyvals).logger.ctx = o.ctx ∧
      (∃ r, (o.Log toLower keyvals).emitted = [(o.ctx, r)]) ∧
      (∀ name, o = NewLogger name →
        ∃ r, (o.Log toLower keyvals).emitted = [(Context.background, r)]) ∧
      (∀ (o0 : OTelLogger) (earlier : List GoValue) (c : Context),
        wellFormed earlier = true → (contexts earlier).getLast? = some c →
        o = (o0.Log toLower earlier).logger →
        ∃ r, (o.Log toLower keyvals).emitted = [(c, r)]) := by
  obtain ⟨r, hloop, -⟩ := logLoop_wellFormed toLower keyvals o.ctx Record.empty h
  rw [hno] at hloop
  simp only [List.getLast?_nil, Option.getD_none] at hloop
  have hlog := Log_of_ok toLower o keyvals o.ctx r hloop
  refine ⟨by rw [hlog], ⟨r, by rw [hlog]⟩, ?_, ?_⟩
  · intro name hname
    refine ⟨r, ?_⟩
    rw [hlog, hname]
    rfl
  · intro o0 earlier c hwf hc ho
    obtain ⟨r0, hloop0, -⟩ := logLoop_wellFormed toLower earlier o0.ctx Record.empty hwf
    rw [hc] at hloop0
    have hlog0 := Log_of_ok toLower o0 earlier _ r0 hloop0
    have hctx : o.ctx = c := by rw [ho, hlog0]; rfl
    exact ⟨r, by rw [hlog, hctx]⟩

/-- C5, on a logger that an earlier call on the sample arguments left. -/
theorem log_without_context_keeps_context_witness :
    wellFormed sampleKeyvalsNoContext = true ∧ contexts sampleKeyvalsNoContext = [] ∧
    ((((NewLogger "name").Log String.toLower sampleKeyvals).logger.Log String.toLower
        sampleKeyvalsNoContext).logger.ctx =
        ((NewLogger "name").Log String.toLower sampleKeyvals).logger.ctx ∧
      (∃ r, (((NewLogger "name").Log String.toLower sampleKeyvals).logger.Log String.toLower
        sampleKeyvalsNoContext).emitted =
          [(((NewLogger "name").Log String.toLower sampleKeyvals).logger.ctx, r)]) ∧
      (∀ name, ((NewLogger "name").Log String.toLower sampleKeyvals).logger = NewLogger name →
        ∃ r, (((NewLogger "name").Log String.toLower sampleKeyvals).logger.Log String.toLower
          sampleKeyvalsNoContext).emitted = [(Context.background, r)]) ∧
      (∀ (o0 : OTelLogger) (earlier : List GoValue) (c : Context),
        wellFormed earlier = true → (contexts earlier).getLast? = some c →
        ((NewLogger "name").Log String.toLower sampleKeyvals).logger =
          (o0.Log String.toLower earlier).logger →
        ∃ r, (((NewLogger "name").Log String.toLower sampleKeyvals).logger.Log String.toLower
          sampleKeyvalsNoContext).emitted = [(c, r)])) :=
  ⟨by decide, by decide,
    log_without_context_keeps_context String.toLower
      ((NewLogger "name").Log String.toLower sampleKeyvals).logger sampleKeyvalsNoContext
      (by decide) (by decide)⟩

/-! ## Completion and failure -/

/-- C6: on every well-formed pair sequence, the empty one included, `Log` does not
panic, returns a nil error and calls `Emit` exactly once, with the context and the
record that the loop over the whole sequence ends with. -/
theorem log_emits_once (toLower : String → String) (o : OTelLogger)
    (keyvals : List GoValue) (h : wellFormed keyvals = true) :
    (o.Log toLower keyvals).result = .ok none ∧
      (o.Log toLower keyvals).emitted.length = 1 ∧
      ∃ ctx r, logLoop toLower o.ctx Record.empty keyvals = (ctx, .ok r) ∧
        (o.Log toLower keyvals).emitted = [(ctx, r)] := by
  obtain ⟨r, hloop, -⟩ := logLoop_wellFormed toLower keyvals o.ctx Record.empty h
  have hlog := Log_of_ok toLower o keyvals _ r hloop
  exact ⟨by rw [hlog], by rw [hlog]; rfl, _, r, hloop, by rw [hlog]⟩

/-- C6, on the sample arguments, where the loop runs four times, and on the empty
sequence. -/
theorem log_emits_once_witness :
    wellFormed sampleKeyvals = true ∧
    (((NewLogger "name").Log String.toLower sampleKeyvals).result = .ok none ∧
      ((NewLogger "name").Log String.toLower sampleKeyvals).emitted.length = 1 ∧
      ∃ ctx r, logLoop String.toLower (NewLogger "name").ctx Record.empty sampleKeyvals
          = (ctx, .ok r) ∧
        ((NewLogger "name").Log String.toLower sampleKeyvals).emitted = [(ctx, r)]) ∧
    wellFormed [] = true ∧
    (((NewLogger "name").Log String.toLower []).result = .ok none ∧
      ((NewLogger "name").Log String.toLower []).emitted.length = 1 ∧
      ∃ ctx r, logLoop String.toLower (NewLogger "name").ctx Record.empty [] = (ctx, .ok r) ∧
        ((NewLogger "name").Log String.toLower []).emitted = [(ctx, r)]) :=
  ⟨by decide, log_emits_once String.toLower (NewLogger "name") sampleKeyvals (by decide),
    by decide, log_emits_once String.toLower (NewLogger "name") [] (by decide)⟩

/-- C7, as stated, fails: on the three arguments `"a", ctx, "b"` the call panics and
emits nothing, but the logger is left holding `ctx`, not the background context it
held before the call. -/
theorem log_odd_length_changes_context :
    [GoValue.string "a", GoValue.context sampleContext, GoValue.string "b"].length % 2 = 1 ∧
      ((NewLogger "name").Log String.toLower
        [.string "a", .context sampleContext, .string "b"]).result
          = .error Panic.indexOutOfRange ∧
      ((NewLogger "name").Log String.toLower
        [.string "a", .context sampleContext, .string "b"]).emitted = [] ∧
      ((NewLogger "name").Log String.toLower
        [.string "a", .context sampleContext, .string "b"]).logger.ctx = sampleContext ∧
      ((NewLogger "name").Log String.toLower
        [.string "a", .context sampleContext, .string "b"]).logger.ctx
          ≠ (NewLogger "name").ctx :=
  ⟨by decide, rfl, rfl, rfl, by decide⟩

/-- C7, amended: on every pair sequence of odd length `Log` panics and makes no `Emit`
call; the logger's context after the failure is the one before the call when no pair
of the sequence has a context value, and in general that one or a context value of the
sequence. -/
theorem log_odd_length_fails (toLower : String → String) (o : OTelLogger)
    (keyvals : List GoValue) (h : keyvals.length % 2 = 1) :
    (∃ e, (o.Log toLower keyvals).result = .error e) ∧
      (o.Log toLower keyvals).emitted = [] ∧
      (contexts keyvals = [] → (o.Log toLower keyvals).logger.ctx = o.ctx) ∧
      ((o.Log toLower keyvals).logger.ctx = o.ctx ∨
        (o.Log toLower keyvals).logger.ctx ∈ contexts keyvals) := by
  obtain ⟨e, he⟩ := logLoop_odd toLower keyvals o.ctx Record.empty h
  have hlog := Log_of_error toLower o keyvals e he
  have hmem := logLoop_fst_mem toLower keyvals o.ctx Record.empty
  refine ⟨⟨e, by rw [hlog]⟩, by rw [hlog], fun hno => ?_, by rw [hlog]; exact hmem⟩
  rw [hlog]
  rw [hno] at hmem
  simpa using hmem

/-- C7 amended, on three arguments without a context value. -/
theorem log_odd_length_fails_witness :
    [GoValue.string "a", GoValue.int 1, GoValue.string "b"].length % 2 = 1 ∧
    ((∃ e, ((NewLogger "name").Log String.toLower
        [.string "a", .int 1, .string "b"]).result = .error e) ∧
      ((NewLogger "name").Log String.toLower [.string "a", .int 1, .string "b"]).emitted = [] ∧
      (contexts [.string "a", .int 1, .string "b"] = [] →
        ((NewLogger "name").Log String.toLower
          [.string "a", .int 1, .string "b"]).logger.ctx = (NewLogger "name").ctx) ∧
      (((NewLogger "name").Log String.toLower
          [.string "a", .int 1, .string "b"]).logger.ctx = (NewLogger "name").ctx ∨
        ((NewLogger "name").Log String.toLower
          [.string "a", .int 1, .string "b"]).logger.ctx ∈
            contexts [.string "a", .int 1, .string "b"])) :=
  ⟨by decide,
    log_odd_length_fails String.toLower (NewLogger "name")
      [.string "a", .int 1, .string "b"] (by decide)⟩

/-- C8, as stated, fails for a context value: on the two arguments `"level", ctx` the
value under `"level"` is not a string, yet the call returns nil and emits one record. -/
theorem log_level_context_succeeds :
    [GoValue.string "level", GoValue.context sampleContext].length % 2 = 0 ∧
      (GoValue.string "level").eqString "level" = true ∧
      (GoValue.context sampleContext).isString = false ∧
      ((NewLogger "name").Log String.toLower
        [.string "level", .context sampleContext]).result = .ok none ∧
      ((NewLogger "name").Log String.toLower
        [.string "level", .context sampleContext]).emitted
          = [(sampleContext, Record.empty)] :=
  ⟨by decide, by decide, by decide, rfl, rfl⟩

/-- C8, amended: on every pair sequence with a pair whose key is `"level"` and whose
value is neither a string nor a context, `Log` panics and makes no `Emit` call; when the
pairs before that pair are well formed, the panic is the failed type assertion on its
value. -/
theorem log_level_mismatch_fails (toLower : String → String) (o : OTelLogger)
    (keyvals : List GoValue) (h : (pairs keyvals).any levelMismatch = true) :
    (∃ e, (o.Log toLower keyvals).result = .error e) ∧
      (o.Log toLower keyvals).emitted = [] ∧
      ∀ pre k v post, keyvals = pre ++ k :: v :: post → wellFormed pre = true →
        levelMismatch (k, v) = true →
        (o.Log toLower keyvals).result = .error Panic.typeAssertion := by
  have hbad : ∀ ctx r k v, levelMismatch (k, v) = true →
      ∃ e, logPair toLower ctx r k v = .error e := by
    intro ctx r k v hm
    simp only [levelMismatch, Bool.and_eq_true, Bool.not_eq_true'] at hm
    exact ⟨_, logPair_level_mismatch toLower ctx r k v
      (eqString_ts_level k hm.1.1) hm.1.1 hm.2 hm.1.2⟩
  obtain ⟨e, he⟩ :=
    logLoop_fails_of_pair toLower levelMismatch hbad keyvals o.ctx Record.empty h
  have hlog := Log_of_error toLower o keyvals e he
  refine ⟨⟨e, by rw [hlog]⟩, by rw [hlog], ?_⟩
  intro pre k v post hkv hwf hm
  have hpre : pre.length % 2 = 0 := by
    simp only [wellFormed, Bool.and_eq_true, beq_iff_eq] at hwf
    exact hwf.1
  obtain ⟨r1, hloop, -⟩ := logLoop_wellFormed toLower pre o.ctx Record.empty hwf
  simp only [levelMismatch, Bool.and_eq_true, Bool.not_eq_true'] at hm
  have hpair := logPair_level_mismatch toLower ((contexts pre).getLast?.getD o.ctx) r1 k v
    (eqString_ts_level k hm.1.1) hm.1.1 hm.2 hm.1.2
  have happ := logLoop_append toLower (k :: v :: post) pre o.ctx Record.empty hpre
  rw [hloop] at happ
  simp only [logLoop, hpair] at happ
  rw [Log_of_error toLower o keyvals Panic.typeAssertion (by rw [hkv, happ])]

/-- C8 amended, on a `"level"` pair with an integer value after a well-formed pair. -/
theorem log_level_mismatch_fails_witness :
    (pairs [.string "testKey", .string "testValue", .string "level", .int 3]).any
        levelMismatch = true ∧
    ((∃ e, ((NewLogger "name").Log String.toLower
        [.string "testKey", .string "testValue", .string "level", .int 3]).result
          = .error e) ∧
      ((NewLogger "name").Log String.toLower
        [.string "testKey", .string "testValue", .string "level", .int 3]).emitted = [] ∧
      ∀ pre k v post,
        [GoValue.string "testKey", .string "testValue", .string "level", .int 3]
          = pre ++ k :: v :: post →
        wellFormed pre = true → levelMismatch (k, v) = true →
        ((NewLogger "name").Log String.toLower
          [.string "testKey", .string "testValue", .string "level", .int 3]).result
            = .error Panic.typeAssertion) :=
  ⟨by decide,
    log_level_mismatch_fails String.toLower (NewLogger "name")
      [.string "testKey", .string "testValue", .string "level", .int 3] (by decide)⟩

/-- C9: on every pair sequence with a pair whose key is `"ts"` and whose value is not a
time, `Log` panics and makes no `Emit` call, so that no record goes out. -/
theorem log_timestamp_mismatch_fails (toLower : String → String) (o : OTelLogger)
    (keyvals : List GoValue) (h : (pairs keyvals).any timestampMismatch = true) :
    (∃ e, (o.Log toLower keyvals).result = .error e) ∧
      (o.Log toLower keyvals).emitted = [] := by
  have hbad : ∀ ctx r k v, timestampMismatch (k, v) = true →
      ∃ e, logPair toLower ctx r k v = .error e := by
    intro ctx r k v hm
    simp only [timestampMismatch, Bool.and_eq_true, Bool.not_eq_true'] at hm
    exact ⟨_, logPair_ts_mismatch toLower ctx r k v hm.1 hm.2⟩
  obtain ⟨e, he⟩ :=
    logLoop_fails_of_pair toLower timestampMismatch hbad keyvals o.ctx Record.empty h
  have hlog := Log_of_error toLower o keyvals e he
  exact ⟨⟨e, by rw [hlog]⟩, by rw [hlog]⟩

/-- C9, on a `"ts"` pair with a string value after a well-formed pair. -/
theorem log_timestamp_mismatch_fails_witness :
    (pairs [.string "testKey", .string "testValue", .string "ts", .string "now"]).any
        timestampMismatch = true ∧
    ((∃ e, ((NewLogger "name").Log String.toLower
        [.string "testKey", .string "testValue", .string "ts", .string "now"]).result
          = .error e) ∧
      ((NewLogger "name").Log String.toLower
        [.string "testKey", .string "testValue", .string "ts", .string "now"]).emitted = []) :=
  ⟨by decide,
    log_timestamp_mismatch_fails String.toLower (NewLogger "name")
      [.string "testKey", .string "testValue", .string "ts", .string "now"] (by decide)⟩

/-- C10, as stated, fails for the zero time: on the two arguments `"ts", time.Time{}`
the sequence has a pair with the key `"ts"`, yet the record that goes out is the zero
record, whose timestamp is not set. -/
theorem log_zero_timestamp_unset :
    wellFormed [.string "ts", .time Time.zero] = true ∧
      (pairs [.string "ts", .time Time.zero]).any (fun p => p.1.eqString "ts") = true ∧
      ((NewLogger "name").Log String.toLower [.string "ts", .time Time.zero]).emitted
        = [(Context.background, Record.empty)] ∧
      Record.empty.timestamp.IsZero = true :=
  ⟨by decide, by decide, rfl, by decide⟩

/-- C10, amended: for every well-formed pair sequence, the timestamp of the record
`Log` emits is the time of the last pair with the key `"ts"`, and the zero time when
there is none; so it is set exactly when that last time is not the zero time, which
needs a pair with the key `"ts"`; and no attribute of the record has the key `"ts"`. -/
theorem log_timestamp (toLower : String → String) (o : OTelLogger)
    (keyvals : List GoValue) (h : wellFormed keyvals = true) :
    ∃ ctx r, (o.Log toLower keyvals).emitted = [(ctx, r)] ∧
      r.timestamp = (timestamps keyvals).getLast?.getD Time.zero ∧
      (r.timestamp.IsZero = false ↔
        ∃ t, (timestamps keyvals).getLast? = some t ∧ t.IsZero = false) ∧
      (r.timestamp.IsZero = false → ∃ p ∈ pairs keyvals, p.1.eqString "ts" = true) ∧
      ∀ a ∈ r.attributes, a.Key ≠ "ts" := by
  obtain ⟨r, hloop, htime, hattr, -, -⟩ :=
    logLoop_wellFormed toLower keyvals o.ctx Record.empty h
  have htime' : r.timestamp = (timestamps keyvals).getLast?.getD Time.zero := htime
  have hattr' : r.attributes.map attributeView = expectedAttributes keyvals := by
    simpa [Record.empty] using hattr
  have hiff : r.timestamp.IsZero = false ↔
      ∃ t, (timestamps keyvals).getLast? = some t ∧ t.IsZero = false := by
    rw [htime']
    cases hlast : (timestamps keyvals).getLast? with
    | none =>
      have hz : Time.zero.IsZero = true := by decide
      simp [hz]
    | some t => simp
  refine ⟨_, r, by rw [Log_of_ok toLower o keyvals _ r hloop], htime', hiff, ?_, ?_⟩
  · intro hset
    obtain ⟨t, ht, -⟩ := hiff.mp hset
    have hmem := List.mem_of_getLast?_eq_some ht
    simp only [timestamps, List.mem_filterMap] at hmem
    obtain ⟨p, hp, hpt⟩ := hmem
    refine ⟨p, hp, ?_⟩
    by_contra hk
    simp [hk] at hpt
  · intro a ha hkey
    have hmem : attributeView a ∈ expectedAttributes keyvals := by
      rw [← hattr']
      exact List.mem_map_of_mem _ ha
    simp only [expectedAttributes, List.mem_map, List.mem_filter] at hmem
    obtain ⟨p, ⟨-, hp⟩, hpa⟩ := hmem
    simp only [attributeView, Prod.mk.injEq] at hpa
    have hts : p.1.eqString "ts" = true := by
      rw [hpa.1, hkey]
      decide
    simp [consumed, hts] at hp

/-- C10 amended, on the sample arguments. -/
theorem log_timestamp_witness :
    wellFormed sampleKeyvals = true ∧
    ∃ ctx r, ((NewLogger "name").Log String.toLower sampleKeyvals).emitted = [(ctx, r)] ∧
      r.timestamp = (timestamps sampleKeyvals).getLast?.getD Time.zero ∧
      (r.timestamp.IsZero = false ↔
        ∃ t, (timestamps sampleKeyvals).getLast? = some t ∧ t.IsZero = false) ∧
      (r.timestamp.IsZero = false → ∃ p ∈ pairs sampleKeyvals, p.1.eqString "ts" = true) ∧
      ∀ a ∈ r.attributes, a.Key ≠ "ts" :=
  ⟨by decide, log_timestamp String.toLower (NewLogger "name") sampleKeyvals (by decide)⟩

/-! ## Totality of convertValue -/

mutual
/-- A failure of `convertValue` is the `reflect` panic on a nil pointer or on a map key
that no lookup finds. -/
theorem convertValue_error_kind :
    ∀ (v : GoValue) (e : Panic), convertValue v = .error e →
      e = Panic.nilDereference ∨ e = Panic.unfoundKey
  | .nil, _, h => by simp [convertValue] at h
  | .bool _, _, h => by simp [convertValue] at h
  | .bytes _, _, h => by simp [convertValue] at h
  | .float64 _, _, h => by simp [convertValue] at h
  | .int _, _, h => by simp [convertValue] at h
  | .int64 _, _, h => by simp [convertValue] at h
  | .string _, _, h => by simp [convertValue] at h
  | .time _, _, h => by simp [convertValue] at h
  | .context _, _, h => by simp [convertValue] at h
  | .struct _, _, h => by simp [convertValue] at h
  | .other _ _, _, h => by simp [convertValue] at h
  | .slice elems, e, h => by
    cases hi : convertItems elems with
    | error e' =>
      have : e' = e := by simpa [convertValue, hi] using h
      exact this ▸ convertItems_error_kind elems e' hi
    | ok ys => simp [convertValue, hi] at h
  | .map entries, e, h => by
    cases hi : convertEntries entries with
    | error e' =>
      have : e' = e := by simpa [convertValue, hi] using h
      exact this ▸ convertEntries_error_kind entries e' hi
    | ok ys => simp [convertValue, hi] at h
  | .ptr none, e, h => by
    have : Panic.nilDereference = e := by simpa [convertValue] using h
    exact Or.inl this.symm
  | .ptr (some v), e, h => convertValue_error_kind v e (by simpa [convertValue] using h)
/-- A failure of the slice loop is one of the two `reflect` panics. -/
theorem convertItems_error_kind :
    ∀ (xs : List GoValue) (e : Panic), convertItems xs = .error e →
      e = Panic.nilDereference ∨ e = Panic.unfoundKey
  | [], _, h => by simp [convertItems] at h
  | x :: xs, e, h => by
    cases hx : convertValue x with
    | error e' =>
      have : e' = e := by simpa [convertItems, hx] using h
      exact this ▸ convertValue_error_kind x e' hx
    | ok y =>
      cases hxs : convertItems xs with
      | error e' =>
        have : e' = e := by simpa [convertItems, hx, hxs] using h
        exact this ▸ convertItems_error_kind xs e' hxs
      | ok ys => simp [convertItems, hx, hxs] at h
/-- A failure of the map loop is one of the two `reflect` panics. -/
theorem convertEntries_error_kind :
    ∀ (es : List (MapKey × GoValue)) (e : Panic), convertEntries es = .error e →
      e = Panic.nilDereference ∨ e = Panic.unfoundKey
  | [], _, h => by simp [convertEntries] at h
  | (k, x) :: rest, e, h => by
    cases hf : k.found with
    | false =>
      have : Panic.unfoundKey = e := by simpa [convertEntries, hf] using h
      exact Or.inr this.symm
    | true =>
      cases hx : convertValue x with
      | error e' =>
        have : e' = e := by simpa [convertEntries, hf, hx] using h
        exact this ▸ convertValue_error_kind x e' hx
      | ok y =>
        cases hxs : convertEntries rest with
        | error e' =>
          have : e' = e := by simpa [convertEntries, hf, hx, hxs] using h
          exact this ▸ convertEntries_error_kind rest e' hxs
        | ok ys => simp [convertEntries, hf, hx, hxs] at h
end

/-- C11: the code breaks the claim on a nil pointer: at top level, as an element of a
slice and as an entry value of a map, `convertValue` panics where the claim promises
the empty value. -/
theorem convertValue_nil_pointer_panics :
    convertValue (.ptr none) = .error Panic.nilDereference ∧
      convertValue (.slice [.int 1, .ptr none]) = .error Panic.nilDereference ∧
      convertValue (.map [(MapKey.ofString "a", .ptr none)]) = .error Panic.nilDereference ∧
      ((NewLogger "name").Log String.toLower [.string "testKey", .ptr none]).result
        = .error Panic.nilDereference :=
  ⟨rfl, rfl, rfl, rfl⟩

/-- C12: a boolean, a string, a 64-bit integer, a native integer, a 64-bit float and a
byte sequence convert to the value of the matching kind (Bool, String, Int64, Int64,
Float64, Bytes), and the accessor of that kind, the one `value2Result` uses, returns
the original. -/
theorem convertValue_primitives_roundtrip (b : Bool) (s : String) (n : Int) (f : Nat)
    (bs : List UInt8) :
    (∃ y, convertValue (.bool b) = .ok y ∧ kindOf y = Kind.KindBool ∧ AsBool y = b ∧
        value2Result y = .bool b) ∧
      (∃ y, convertValue (.string s) = .ok y ∧ kindOf y = Kind.KindString ∧
        AsString y = s ∧ value2Result y = .string s) ∧
      (∃ y, convertValue (.int64 n) = .ok y ∧ kindOf y = Kind.KindInt64 ∧ AsInt64 y = n ∧
        value2Result y = .int64 n) ∧
      (∃ y, convertValue (.int n) = .ok y ∧ kindOf y = Kind.KindInt64 ∧ AsInt64 y = n ∧
        value2Result y = .int64 n) ∧
      (∃ y, convertValue (.float64 f) = .ok y ∧ kindOf y = Kind.KindFloat64 ∧
        AsFloat64 y = f ∧ value2Result y = .float64 f) ∧
      (∃ y, convertValue (.bytes bs) = .ok y ∧ kindOf y = Kind.KindBytes ∧ AsBytes y = bs ∧
        value2Result y = .bytes bs) :=
  ⟨⟨_, rfl, rfl, rfl, rfl⟩, ⟨_, rfl, rfl, rfl, rfl⟩, ⟨_, rfl, rfl, rfl, rfl⟩,
    ⟨_, rfl, rfl, rfl, rfl⟩, ⟨_, rfl, rfl, rfl, rfl⟩, ⟨_, rfl, rfl, rfl, rfl⟩⟩

/-- C17: a non-nil pointer is transparent to `convertValue`, through one level and
through any number of levels. -/
theorem convertValue_pointer_transparent (n : Nat) (v : GoValue) :
    convertValue (.ptr (some v)) = convertValue v ∧
      convertValue (pointerTo n v) = convertValue v := by
  refine ⟨by simp [convertValue], ?_⟩
  induction n with
  | zero => rfl
  | succ n ih => simp [pointerTo, convertValue, ih]

/-- The recursion of `convertValue` is on the elements of a slice, the entry values of
a map and the target of a pointer, each smaller than the value; on a value without a
nil pointer and without a map key that no lookup finds it returns a value, and its
only failures are the two `reflect` panics, on a value that holds a nil pointer or such
a key. -/
theorem convertValue_returns (v : GoValue) (h : noNilPtr v = true)
    (hk : keysFound v = true) :
    (∃ y, convertValue v = .ok y) ∧
      (∀ w e, convertValue w = .error e →
        (e = Panic.nilDereference ∨ e = Panic.unfoundKey) ∧
          (noNilPtr w = false ∨ keysFound w = false)) ∧
      (∀ (xs : List GoValue) (x : GoValue), x ∈ xs → sizeOf x < sizeOf (GoValue.slice xs)) ∧
      (∀ (es : List (MapKey × GoValue)) (e : MapKey × GoValue), e ∈ es →
        sizeOf e.2 < sizeOf (GoValue.map es)) ∧
      (∀ w : GoValue, sizeOf w < sizeOf (GoValue.ptr (some w))) := by
  refine ⟨convertValue_of_noNilPtr v h hk,
    fun w e he => ⟨convertValue_error_kind w e he, convertValue_error w e he⟩, ?_, ?_, ?_⟩
  · intro xs x hx
    have := List.sizeOf_lt_of_mem hx
    simp only [GoValue.slice.sizeOf_spec]
    omega
  · intro es e he
    have h1 := List.sizeOf_lt_of_mem he
    have h2 : sizeOf e.2 < sizeOf e := by
      obtain ⟨k, x⟩ := e
      simp only [Prod.mk.sizeOf_spec]
      omega
    simp only [GoValue.map.sizeOf_spec]
    omega
  · intro w
    simp only [GoValue.ptr.sizeOf_spec, Option.some.sizeOf_spec]
    omega

/-- C19: the code breaks the claim on a map with a key that no lookup finds: the value
is finite and holds no nil pointer, at top level or inside a slice or behind a pointer,
yet `convertValue` panics, in the map branch and not on a nil pointer. -/
theorem convertValue_fails_without_nil_pointer :
    noNilPtr (.map sampleNaNEntries) = true ∧
      convertValue (.map sampleNaNEntries) = .error Panic.unfoundKey ∧
      noNilPtr (.slice [.int 1, .map sampleNaNEntries]) = true ∧
      convertValue (.slice [.int 1, .map sampleNaNEntries]) = .error Panic.unfoundKey ∧
      noNilPtr (.ptr (some (.map sampleNaNEntries))) = true ∧
      convertValue (.ptr (some (.map sampleNaNEntries))) = .error Panic.unfoundKey ∧
      Panic.unfoundKey ≠ Panic.nilDereference :=
  ⟨by decide, rfl, by decide, rfl, by decide, rfl, by decide⟩

/-- C20: on every pair sequence with a pair whose key is not a string and whose value
is not a context, `Log` panics and makes no `Emit` call, so that no attribute with a
rendered key goes out. -/
theorem log_key_mismatch_fails (toLower : String → String) (o : OTelLogger)
    (keyvals : List GoValue) (h : (pairs keyvals).any keyMismatch = true) :
    (∃ e, (o.Log toLower keyvals).result = .error e) ∧
      (o.Log toLower keyvals).emitted = [] := by
  have hbad : ∀ ctx r k v, keyMismatch (k, v) = true →
      ∃ e, logPair toLower ctx r k v = .error e := by
    intro ctx r k v hm
    simp only [keyMismatch, Bool.and_eq_true, Bool.not_eq_true'] at hm
    have hts : k.eqString "ts" = false := by
      cases k <;> simp_all [GoValue.eqString, GoValue.isString]
    have hl : k.eqString "level" = false := by
      cases k <;> simp_all [GoValue.eqString, GoValue.isString]
    exact ⟨_, logPair_key_mismatch toLower ctx r k v hts hl hm.2 hm.1⟩
  obtain ⟨e, he⟩ :=
    logLoop_fails_of_pair toLower keyMismatch hbad keyvals o.ctx Record.empty h
  have hlog := Log_of_error toLower o keyvals e he
  exact ⟨⟨e, by rw [hlog]⟩, by rw [hlog]⟩

/-- C20, on a pair with an integer key after a well-formed pair. -/
theorem log_key_mismatch_fails_witness :
    (pairs [.string "testKey", .string "testValue", .int 7, .string "seven"]).any
        keyMismatch = true ∧
    ((∃ e, ((NewLogger "name").Log String.toLower
        [.string "testKey", .string "testValue", .int 7, .string "seven"]).result
          = .error e) ∧
      ((NewLogger "name").Log String.toLower
        [.string "testKey", .string "testValue", .int 7, .string "seven"]).emitted = []) :=
  ⟨by decide,
    log_key_mismatch_fails String.toLower (NewLogger "name")
      [.string "testKey", .string "testValue", .int 7, .string "seven"] (by decide)⟩

/-! ## Slices and maps -/

/-- The slice loop returns `ys` exactly when `ys` holds the conversions of the elements,
index by index. -/
theorem convertItems_ok_iff :
    ∀ (xs : List GoValue) (ys : List Value),
      convertItems xs = .ok ys ↔ xs.map convertValue = ys.map Except.ok
  | [], ys => by
    cases ys <;> simp [convertItems]
  | x :: xs, ys => by
    cases hx : convertValue x with
    | error e =>
      cases ys <;> simp [convertItems, hx]
    | ok y =>
      cases hxs : convertItems xs with
      | error e =>
        cases ys with
        | nil => simp [convertItems, hx, hxs]
        | cons y' ys' =>
          have hne : ¬ xs.map convertValue = ys'.map Except.ok := fun hmap => by
            rw [(convertItems_ok_iff xs ys').mpr hmap] at hxs
            cases hxs
          simp [convertItems, hx, hxs, hne]
      | ok zs =>
        have hzs := (convertItems_ok_iff xs zs).mp hxs
        cases ys with
        | nil => simp [convertItems, hx, hxs]
        | cons y' ys' =>
          simp only [convertItems, hx, hxs, Except.ok.injEq, List.cons.injEq, List.map_cons]
          constructor
          · rintro ⟨rfl, rfl⟩
            exact ⟨rfl, hzs⟩
          · rintro ⟨rfl, hmap⟩
            refine ⟨rfl, ?_⟩
            have := (convertItems_ok_iff xs ys').mpr hmap
            rw [hxs] at this
            exact Except.ok.inj this

/-- When the map loop returns `kvs`, a lookup finds every key and `kvs` holds, entry by
entry, the rendered key and the conversion of the value. -/
theorem convertEntries_map_of_ok :
    ∀ (es : List (MapKey × GoValue)) (kvs : List (String × Value)),
      convertEntries es = .ok kvs →
        (∀ e ∈ es, e.1.found = true) ∧
          es.map (fun e => (e.1.render, convertValue e.2)) =
            kvs.map (fun kv => (kv.1, Except.ok kv.2))
  | [], kvs, h => by
    have : kvs = [] := by simpa [convertEntries] using h.symm
    simp [this]
  | (k, x) :: rest, kvs, h => by
    cases hf : k.found with
    | false => simp [convertEntries, hf] at h
    | true =>
      cases hx : convertValue x with
      | error e => simp [convertEntries, hf, hx] at h
      | ok y =>
        cases hxs : convertEntries rest with
        | error e => simp [convertEntries, hf, hx, hxs] at h
        | ok zs =>
          have hk : kvs = (if k.isStruct then k.plusV else k.v, y) :: zs := by
            simpa [convertEntries, hf, hx, hxs] using h.symm
          obtain ⟨h1, h2⟩ := convertEntries_map_of_ok rest zs hxs
          subst hk
          refine ⟨?_, ?_⟩
          · intro e he
            rcases List.mem_cons.mp he with rfl | he
            · exact hf
            · exact h1 e he
          · rw [List.map_cons, List.map_cons, h2]
            simp only [hx, MapKey.render]

/-- Elements that convert one by one convert in the slice loop. -/
theorem convertItems_of_forall :
    ∀ xs : List GoValue, (∀ x ∈ xs, ∃ y, convertValue x = .ok y) →
      ∃ ys, convertItems xs = .ok ys
  | [], _ => ⟨[], by simp [convertItems]⟩
  | x :: xs, h => by
    obtain ⟨y, hy⟩ := h x (List.mem_cons_self x xs)
    obtain ⟨ys, hys⟩ := convertItems_of_forall xs fun z hz => h z (List.mem_cons_of_mem x hz)
    exact ⟨y :: ys, by simp [convertItems, hy, hys]⟩

/-- Entries whose keys a lookup finds and whose values convert one by one convert in
the map loop. -/
theorem convertEntries_of_forall :
    ∀ es : List (MapKey × GoValue),
      (∀ e ∈ es, e.1.found = true ∧ ∃ y, convertValue e.2 = .ok y) →
        ∃ kvs, convertEntries es = .ok kvs
  | [], _ => ⟨[], by simp [convertEntries]⟩
  | (k, x) :: rest, h => by
    obtain ⟨hf, y, hy⟩ := h (k, x) (List.mem_cons_self _ _)
    have hf' : k.found = true := hf
    have hy' : convertValue x = .ok y := hy
    obtain ⟨ys, hys⟩ :=
      convertEntries_of_forall rest fun z hz => h z (List.mem_cons_of_mem _ hz)
    exact ⟨(if k.isStruct then k.plusV else k.v, y) :: ys, by
      simp [convertEntries, hf', hy', hys]⟩

/-- Iterating a map in another order gives the same entries, in that other order. -/
theorem convertEntries_perm {es es' : List (MapKey × GoValue)} (hp : es.Perm es') :
    ∀ kvs, convertEntries es = .ok kvs →
      ∃ kvs', convertEntries es' = .ok kvs' ∧ kvs.Perm kvs' := by
  induction hp with
  | nil => exact fun kvs h => ⟨kvs, h, List.Perm.refl _⟩
  | @cons e l1 l2 _ ih =>
    intro kvs h
    obtain ⟨k, x⟩ := e
    cases hf : k.found with
    | false => simp [convertEntries, hf] at h
    | true =>
      cases hx : convertValue x with
      | error err => simp [convertEntries, hf, hx] at h
      | ok y =>
        cases hxs : convertEntries l1 with
        | error err => simp [convertEntries, hf, hx, hxs] at h
        | ok zs =>
          obtain ⟨zs', hzs', hperm⟩ := ih zs hxs
          have hk : kvs = (if k.isStruct then k.plusV else k.v, y) :: zs := by
            simpa [convertEntries, hf, hx, hxs] using h.symm
          exact ⟨_, by simp [convertEntries, hf, hx, hzs'], hk ▸ hperm.cons _⟩
  | swap e1 e2 l =>
    intro kvs h
    obtain ⟨k1, x1⟩ := e1
    obtain ⟨k2, x2⟩ := e2
    cases hf2 : k2.found with
    | false => simp [convertEntries, hf2] at h
    | true =>
      cases h2 : convertValue x2 with
      | error err => simp [convertEntries, hf2, h2] at h
      | ok y2 =>
        cases hf1 : k1.found with
        | false => simp [convertEntries, hf2, h2, hf1] at h
        | true =>
          cases h1 : convertValue x1 with
          | error err => simp [convertEntries, hf2, h2, hf1, h1] at h
          | ok y1 =>
            cases hl : convertEntries l with
            | error err => simp [convertEntries, hf1, hf2, h1, h2, hl] at h
            | ok zs =>
              have hk : kvs = (if k2.isStruct then k2.plusV else k2.v, y2) ::
                  (if k1.isStruct then k1.plusV else k1.v, y1) :: zs := by
                simpa [convertEntries, hf1, hf2, h1, h2, hl] using h.symm
              exact ⟨_, by simp [convertEntries, hf1, hf2, h1, h2, hl],
                hk ▸ List.Perm.swap _ _ _⟩
  | trans _ _ ih1 ih2 =>
    intro kvs h
    obtain ⟨kvs1, h1, p1⟩ := ih1 kvs h
    obtain ⟨kvs2, h2, p2⟩ := ih2 kvs1 h1
    exact ⟨kvs2, h2, p1.trans p2⟩

/-- The conversion of a slice that succeeds comes from the slice loop. -/
theorem convertItems_of_slice (xs : List GoValue) (items : List Value)
    (h : convertValue (.slice xs) = .ok (Value.Slice items)) : convertItems xs = .ok items := by
  cases hi : convertItems xs with
  | error e => simp [convertValue, hi] at h
  | ok ys =>
    have : ys = items := by simpa [convertValue, hi] using h
    rw [this]

/-- The conversion of a map that succeeds comes from the map loop. -/
theorem convertEntries_of_map (es : List (MapKey × GoValue)) (kvs : List (String × Value))
    (h : convertValue (.map es) = .ok (Value.Map kvs)) : convertEntries es = .ok kvs := by
  cases hi : convertEntries es with
  | error e => simp [convertValue, hi] at h
  | ok ys =>
    have : ys = kvs := by simpa [convertValue, hi] using h
    rw [this]

/-- The element at an index of a converted slice. -/
theorem convertItems_getElem (xs : List GoValue) (items : List Value)
    (h : convertItems xs = .ok items) (i : Nat) (hx : i < xs.length)
    (hi : i < items.length) : convertValue xs[i] = .ok items[i] := by
  have hmap := (convertItems_ok_iff xs items).mp h
  have := congrArg (fun l => l[i]?) hmap
  simpa [List.getElem?_map, List.getElem?_eq_getElem hx, List.getElem?_eq_getElem hi]
    using this

/-- The entry at an index of a converted map. -/
theorem convertEntries_getElem (es : List (MapKey × GoValue)) (kvs : List (String × Value))
    (h : convertEntries es = .ok kvs) (i : Nat) (hx : i < es.length)
    (hi : i < kvs.length) :
    kvs[i].1 = es[i].1.render ∧ convertValue es[i].2 = .ok kvs[i].2 := by
  have hmap := (convertEntries_map_of_ok es kvs h).2
  have := congrArg (fun l => l[i]?) hmap
  simp only [List.getElem?_map, List.getElem?_eq_getElem hx, List.getElem?_eq_getElem hi,
    Option.map_some', Option.some.injEq, Prod.mk.injEq] at this
  exact ⟨this.1.symm, this.2⟩

/-- C13: a slice or array whose elements convert converts to a Slice value of the same
length whose element at every index is the conversion of the element at that index. -/
theorem convertValue_slice (xs : List GoValue)
    (h : ∀ x ∈ xs, ∃ y, convertValue x = .ok y) :
    ∃ items, convertValue (.slice xs) = .ok (Value.Slice items) ∧
      items.length = xs.length ∧
      (∀ i (hx : i < xs.length) (hi : i < items.length),
        convertValue xs[i] = .ok items[i]) ∧
      xs.map convertValue = items.map Except.ok := by
  obtain ⟨ys, hys⟩ := convertItems_of_forall xs h
  have hmap := (convertItems_ok_iff xs ys).mp hys
  refine ⟨ys, by simp [convertValue, hys], ?_,
    fun i hx hi => convertItems_getElem xs ys hys i hx hi, hmap⟩
  have := congrArg List.length hmap
  simpa using this.symm

/-- C13, on a sequence holding a map holding a sequence, and a string. -/
theorem convertValue_slice_witness :
    (∀ x ∈ sampleNested, ∃ y, convertValue x = .ok y) ∧
    (∃ items, convertValue (.slice sampleNested) = .ok (Value.Slice items) ∧
      items.length = sampleNested.length ∧
      (∀ i (hx : i < sampleNested.length) (hi : i < items.length),
        convertValue sampleNested[i] = .ok items[i]) ∧
      sampleNested.map convertValue = items.map Except.ok) ∧
    convertValue (.slice sampleNested) =
      .ok (Value.Slice
        [Value.Map [("k", Value.Slice [Value.Int64 1, Value.Int64 2])], Value.String "x"]) :=
  ⟨fun x hx => by
      simp only [sampleNested, List.mem_cons, List.mem_singleton, List.not_mem_nil,
        or_false] at hx
      rcases hx with rfl | rfl <;> exact ⟨_, rfl⟩,
    convertValue_slice sampleNested (fun x hx => by
      simp only [sampleNested, List.mem_cons, List.mem_singleton, List.not_mem_nil,
        or_false] at hx
      rcases hx with rfl | rfl <;> exact ⟨_, rfl⟩),
    rfl⟩

/-- A map whose keys a lookup finds and whose entry values convert converts to a Map
value with one entry per entry of the map, each the rendered key with the conversion of
the entry value; another iteration order gives the same entries, in that other order. -/
theorem convertValue_map (entries : List (MapKey × GoValue))
    (h : ∀ e ∈ entries, e.1.found = true ∧ ∃ y, convertValue e.2 = .ok y) :
    ∃ kvs, convertValue (.map entries) = .ok (Value.Map kvs) ∧
      kvs.length = entries.length ∧
      entries.map (fun e => (e.1.render, convertValue e.2)) =
        kvs.map (fun kv => (kv.1, Except.ok kv.2)) ∧
      ∀ entries', entries.Perm entries' →
        ∃ kvs', convertValue (.map entries') = .ok (Value.Map kvs') ∧ kvs.Perm kvs' := by
  obtain ⟨kvs, hkvs⟩ := convertEntries_of_forall entries h
  have hmap := (convertEntries_map_of_ok entries kvs hkvs).2
  refine ⟨kvs, by simp [convertValue, hkvs], ?_, hmap, ?_⟩
  · have := congrArg List.length hmap
    simpa using this.symm
  · intro entries' hp
    obtain ⟨kvs', hkvs', hperm⟩ := convertEntries_perm hp kvs hkvs
    exact ⟨kvs', by simp [convertValue, hkvs'], hperm⟩

/-- The map `{"a": 1, "b": 2}` converts to two entries with the keys `a` and `b` and
the integers 1 and 2, in either iteration order. -/
theorem convertValue_map_sample :
    convertValue (.map sampleMapEntries) =
        .ok (Value.Map [("a", Value.Int64 1), ("b", Value.Int64 2)]) ∧
      convertValue (.map sampleMapEntries.reverse) =
        .ok (Value.Map [("b", Value.Int64 2), ("a", Value.Int64 1)]) :=
  ⟨rfl, rfl⟩

/-- C14: the code breaks the claim on a map with a NaN key: the entry value converts,
yet `convertValue` of the map panics on the lookup of the key, and so does `Log` with
the map as an attribute value, which emits nothing. -/
theorem convertValue_map_unfound_key_panics :
    convertValue (.int 1) = .ok (Value.Int64 1) ∧
      sampleNaNEntries = [(MapKey.nan, .int 1)] ∧
      convertValue (.map sampleNaNEntries) = .error Panic.unfoundKey ∧
      ((NewLogger "name").Log String.toLower
        [.string "testKey", .map sampleNaNEntries]).result = .error Panic.unfoundKey ∧
      ((NewLogger "name").Log String.toLower
        [.string "testKey", .map sampleNaNEntries]).emitted = [] :=
  ⟨rfl, rfl, rfl, rfl, rfl⟩

/-- C18: a value of an unhandled type converts to a String value, not to an integer or
a float: the text is `unhandled attribute type: (`, the type name, `) ` and the
rendering of the value; so it is for such an element of a converted slice and for such
an entry value of a converted map. -/
theorem convertValue_unhandled (typeName plusV : String) :
    convertValue (.other typeName plusV) =
        .ok (Value.String ("unhandled attribute type: (" ++ typeName ++ ") " ++ plusV)) ∧
      (∀ n, convertValue (.other typeName plusV) ≠ .ok (Value.Int64 n)) ∧
      (∀ f, convertValue (.other typeName plusV) ≠ .ok (Value.Float64 f)) ∧
      (∀ (xs : List GoValue) (items : List Value) (i : Nat) (hx : i < xs.length)
          (hi : i < items.length),
        convertValue (.slice xs) = .ok (Value.Slice items) →
        xs[i] = .other typeName plusV →
        items[i] =
          Value.String ("unhandled attribute type: (" ++ typeName ++ ") " ++ plusV)) ∧
      (∀ (es : List (MapKey × GoValue)) (kvs : List (String × Value)) (i : Nat)
          (hx : i < es.length) (hi : i < kvs.length),
        convertValue (.map es) = .ok (Value.Map kvs) →
        es[i].2 = .other typeName plusV →
        kvs[i].2 =
          Value.String ("unhandled attribute type: (" ++ typeName ++ ") " ++ plusV)) := by
  refine ⟨rfl, fun n => by simp [convertValue], fun f => by simp [convertValue], ?_, ?_⟩
  · intro xs items i hx hi hconv hxi
    have hget := convertItems_getElem xs items (convertItems_of_slice xs items hconv) i hx hi
    rw [hxi] at hget
    simpa [convertValue] using hget.symm
  · intro es kvs i hx hi hconv hxi
    have hget :=
      (convertEntries_getElem es kvs (convertEntries_of_map es kvs hconv) i hx hi).2
    rw [hxi] at hget
    simpa [convertValue] using hget.symm

/-! ## Nil values and several contexts in Log -/

/-- The pairs of a concatenation whose first part has even length. -/
theorem pairs_append (rest : List GoValue) :
    ∀ pre : List GoValue, pre.length % 2 = 0 → pairs (pre ++ rest) = pairs pre ++ pairs rest
  | [], _ => by simp [pairs]
  | [_], h => by simp at h
  | k :: v :: pre, h => by
    have hpre : pre.length % 2 = 0 := by
      simp only [List.length_cons] at h
      omega
    simp [pairs, pairs_append rest pre hpre]

/-- C15: `convertValue` of the nil value is the empty value, and in a well-formed pair
sequence a pair of a string key other than `"ts"` and `"level"` with the nil value
yields, at its place among the attributes, the key with the empty value. -/
theorem log_nil_value_attribute (toLower : String → String) (o : OTelLogger)
    (pre post : List GoValue) (key : String) (hpre : pre.length % 2 = 0)
    (hts : key ≠ "ts") (hl : key ≠ "level")
    (h : wellFormed (pre ++ .string key :: .nil :: post) = true) :
    convertValue .nil = .ok Value.Empty ∧
      ∃ ctx r, (o.Log toLower (pre ++ .string key :: .nil :: post)).emitted = [(ctx, r)] ∧
        r.attributes.map attributeView =
          expectedAttributes pre ++
            (GoValue.string key, Except.ok Value.Empty) :: expectedAttributes post := by
  refine ⟨rfl, ?_⟩
  obtain ⟨r, hloop, -, hattr, -, -⟩ :=
    logLoop_wellFormed toLower (pre ++ .string key :: .nil :: post) o.ctx Record.empty h
  refine ⟨_, r, by rw [Log_of_ok toLower o _ _ r hloop], ?_⟩
  have hcons : consumed (GoValue.string key, GoValue.nil) = false := by
    simp [consumed, GoValue.eqString, GoValue.isContext, hts, hl]
  have hexp : expectedAttributes (pre ++ .string key :: .nil :: post) =
      expectedAttributes pre ++
        (GoValue.string key, Except.ok Value.Empty) :: expectedAttributes post := by
    simp only [expectedAttributes, pairs_append _ pre hpre, pairs, List.filter_append,
      List.map_append, List.filter_cons, hcons, Bool.not_false, if_true, List.map_cons]
    rfl
  rw [← hexp]
  simpa [Record.empty] using hattr

/-- C15, on a nil value between two well-formed pairs. -/
theorem log_nil_value_attribute_witness :
    [GoValue.string "testKey", GoValue.string "testValue"].length % 2 = 0 ∧
    "missing" ≠ "ts" ∧ "missing" ≠ "level" ∧
    wellFormed ([.string "testKey", .string "testValue"] ++
      .string "missing" :: .nil :: [.string "level", .string "info"]) = true ∧
    (convertValue .nil = .ok Value.Empty ∧
      ∃ ctx r, ((NewLogger "name").Log String.toLower
          ([.string "testKey", .string "testValue"] ++
            .string "missing" :: .nil :: [.string "level", .string "info"])).emitted
            = [(ctx, r)] ∧
        r.attributes.map attributeView =
          expectedAttributes [.string "testKey", .string "testValue"] ++
            (GoValue.string "missing", Except.ok Value.Empty) ::
              expectedAttributes [.string "level", .string "info"]) :=
  ⟨by decide, by decide, by decide, by decide,
    log_nil_value_attribute String.toLower (NewLogger "name")
      [.string "testKey", .string "testValue"] [.string "level", .string "info"] "missing"
      (by decide) (by decide) (by decide) (by decide)⟩

/-- C16: on a well-formed pair sequence with context values, the record is emitted
with the value of the last context-valued pair, the logger holds that context after
the call, and the attributes come from the pairs that are not consumed, none of which
has a context value. -/
theorem log_last_context (toLower : String → String) (o : OTelLogger)
    (keyvals : List GoValue) (c : Context) (h : wellFormed keyvals = true)
    (hc : (contexts keyvals).getLast? = some c) :
    (o.Log toLower keyvals).logger.ctx = c ∧
      ∃ r, (o.Log toLower keyvals).emitted = [(c, r)] ∧
        r.attributes.map attributeView =
          ((pairs keyvals).filter fun p => !consumed p).map
            (fun p => (p.1, convertValue p.2)) ∧
        ∀ p ∈ pairs keyvals, p.2.isContext = true →
          p ∉ (pairs keyvals).filter fun p => !consumed p := by
  obtain ⟨r, hloop, -, hattr, -, -⟩ :=
    logLoop_wellFormed toLower keyvals o.ctx Record.empty h
  rw [hc] at hloop
  have hlog := Log_of_ok toLower o keyvals c r (by simpa using hloop)
  refine ⟨by rw [hlog], r, by rw [hlog], ?_, ?_⟩
  · simpa [Record.empty, expectedAttributes] using hattr
  · intro p _ hctx hmem
    simp only [List.mem_filter, consumed, hctx, Bool.or_true, Bool.true_or, Bool.not_true,
      Bool.false_eq_true, and_false] at hmem

/-- C16, on arguments with two context values, the second of which wins. -/
theorem log_last_context_witness :
    wellFormed sampleKeyvalsTwoContexts = true ∧
    (contexts sampleKeyvalsTwoContexts).getLast? = some sampleContext ∧
    (((NewLogger "name").Log String.toLower sampleKeyvalsTwoContexts).logger.ctx
        = sampleContext ∧
      ∃ r, ((NewLogger "name").Log String.toLower sampleKeyvalsTwoContexts).emitted
          = [(sampleContext, r)] ∧
        r.attributes.map attributeView =
          ((pairs sampleKeyvalsTwoContexts).filter fun p => !consumed p).map
            (fun p => (p.1, convertValue p.2)) ∧
        ∀ p ∈ pairs sampleKeyvalsTwoContexts, p.2.isContext = true →
          p ∉ (pairs sampleKeyvalsTwoContexts).filter fun p => !consumed p) :=
  ⟨by decide, by decide,
    log_last_context String.toLower (NewLogger "name") sampleKeyvalsTwoContexts sampleContext
      (by decide) (by decide)⟩

end Otelgokit
